import Mathlib

/-!
Verification development for the `enigma_csp` CSP-to-SAT encoder
(`src/enigma_csp/src/encoder.rs`).

The encoder's own logic is translated function-by-function from
`encoder.rs`.  The supporting interfaces it consumes (`arithmetic.rs`,
`norm_csp.rs`, `sat.rs`, `config.rs`) are not part of the source tree and
are modelled from the specification document; every such definition is
marked with a doc comment starting with `Modelled from the spec:`.

Machine integers (`CheckedInt`, a 32-bit integer trapping on overflow)
are modelled as unbounded `Int`: no claim under study depends on
overflow behaviour, and the spec stipulates that overflow aborts rather
than wraps.
-/

namespace EnigmaCSP

/-- Modelled from the spec: a SAT literal is a Boolean variable or its
negation (`sat.rs` is not in the source tree). -/
structure Lit where
  var : Nat
  neg : Bool
deriving DecidableEq, Repr

/-- Negation of a SAT literal (Rust `!lit`). -/
def Lit.inv (l : Lit) : Lit := ⟨l.var, !l.neg⟩

/-- Modelled from the spec: comparison operators of linear literals. -/
inductive CmpOp where
  | eq | ne | le | lt | ge | gt
deriving DecidableEq, Repr

/-- Modelled from the spec: `CmpOp::compare` evaluates `lhs op rhs`
(`arithmetic.rs` is not in the source tree). -/
def CmpOp.compare : CmpOp → Int → Int → Bool
  | .eq, a, b => a == b
  | .ne, a, b => a != b
  | .le, a, b => a ≤ b
  | .lt, a, b => a < b
  | .ge, a, b => a ≥ b
  | .gt, a, b => a > b

/-- Modelled from the spec: an inclusive interval `[low, high]`
(`arithmetic.rs` is not in the source tree). -/
structure Range where
  low : Int
  high : Int
deriving DecidableEq, Repr

/-- Modelled from the spec: the singleton range of a constant. -/
def Range.constant (k : Int) : Range := ⟨k, k⟩

/-- Modelled from the spec: the empty range. -/
def Range.empty : Range := ⟨1, 0⟩

/-- Modelled from the spec: ranges add componentwise. -/
def Range.add (a b : Range) : Range := ⟨a.low + b.low, a.high + b.high⟩

/-- Modelled from the spec: multiplication by a negative scalar swaps the
endpoints. -/
def Range.mulScalar (a : Range) (c : Int) : Range :=
  if 0 ≤ c then ⟨a.low * c, a.high * c⟩ else ⟨a.high * c, a.low * c⟩

/-- Modelled from the spec: a `Domain` is a finite strictly ascending
sequence of integers (`norm_csp.rs` is not in the source tree). -/
structure Domain where
  vals : List Int
deriving DecidableEq, Repr

/-- Modelled from the spec: `Domain::enumerate` lists the domain values. -/
def Domain.enumerate (d : Domain) : List Int := d.vals

/-- Modelled from the spec: lower bound of a nonempty domain. -/
def Domain.lowerBound (d : Domain) : Int := d.vals.headD 0

/-- Modelled from the spec: upper bound of a nonempty domain. -/
def Domain.upperBound (d : Domain) : Int := d.vals.getLastD 0

/-- Modelled from the spec: drop the values above `ub`. -/
def Domain.refineUpperBound (d : Domain) (ub : Int) : Domain :=
  ⟨d.vals.filter (fun x => x ≤ ub)⟩

/-- Modelled from the spec: drop the values below `lb`. -/
def Domain.refineLowerBound (d : Domain) (lb : Int) : Domain :=
  ⟨d.vals.filter (fun x => lb ≤ x)⟩

/-- Insertion sort by a boolean "less or equal" test; used to model the
stable sorts of the Rust code (`Vec::sort_by` is stable, and insertion
sort with a reflexive test preserves the order of equal keys). -/
def insertBy (le : α → α → Bool) (x : α) : List α → List α
  | [] => [x]
  | y :: ys => if le x y then x :: y :: ys else y :: insertBy le x ys

/-- Stable insertion sort driven by `insertBy`. -/
def sortBy (le : α → α → Bool) : List α → List α
  | [] => []
  | x :: xs => insertBy le x (sortBy le xs)

/-- Collapse adjacent duplicates of a sorted list. -/
def dedupSorted : List Int → List Int
  | [] => []
  | [x] => [x]
  | x :: y :: rest => if x == y then dedupSorted (y :: rest) else x :: dedupSorted (y :: rest)

/-- Modelled from the spec: multiplying a domain by a scalar maps the
values and keeps them ascending (reversing on a negative scalar). -/
def Domain.mulScalar (d : Domain) (c : Int) : Domain :=
  if 0 ≤ c then ⟨d.vals.map (fun x => x * c)⟩
  else ⟨(d.vals.map (fun x => x * c)).reverse⟩

/-- Modelled from the spec: a Boolean literal of the normalized CSP is a
(variable, negated?) pair. -/
structure BoolLit where
  var : Nat
  negated : Bool
deriving DecidableEq, Repr

/-- Modelled from the spec: representation of an integer variable, either
a bare domain or a Binary two-valued integer driven by a Boolean literal. -/
inductive IntVarRepresentation where
  | domain (d : Domain)
  | binary (cond : BoolLit) (f t : Int)
deriving DecidableEq, Repr

/-- Modelled from the spec: a linear sum is a map from integer variables
to nonzero coefficients plus a constant, iterated in ascending key order
(Rust `BTreeMap`).  `term` is kept sorted by variable index. -/
structure LinearSum where
  term : List (Nat × Int)
  constant : Int
deriving DecidableEq, Repr

/-- Number of terms of the sum (Rust `LinearSum::len`). -/
def LinearSum.len (s : LinearSum) : Nat := s.term.length

/-- Insert a coefficient into the ascending assoc list, merging with an
existing entry and dropping the entry when the merged coefficient is 0. -/
def addCoefAux (v : Nat) (c : Int) : List (Nat × Int) → List (Nat × Int)
  | [] => [(v, c)]
  | (w, cw) :: rest =>
    if v < w then (v, c) :: (w, cw) :: rest
    else if v == w then
      (if cw + c == 0 then rest else (w, cw + c) :: rest)
    else (w, cw) :: addCoefAux v c rest

/-- Modelled from the spec: `LinearSum::add_coef`. -/
def LinearSum.addCoef (s : LinearSum) (v : Nat) (c : Int) : LinearSum :=
  ⟨addCoefAux v c s.term, s.constant⟩

/-- Modelled from the spec: the empty linear sum. -/
def LinearSum.empty : LinearSum := ⟨[], 0⟩

/-- Modelled from the spec: the constant linear sum. -/
def LinearSum.ofConstant (k : Int) : LinearSum := ⟨[], k⟩

/-- Modelled from the spec: scaling a linear sum by a nonzero constant. -/
def LinearSum.mulScalar (s : LinearSum) (c : Int) : LinearSum :=
  ⟨s.term.map (fun t => (t.1, t.2 * c)), s.constant * c⟩

/-- Modelled from the spec: adding a constant to a linear sum. -/
def LinearSum.addConstant (s : LinearSum) (k : Int) : LinearSum :=
  ⟨s.term, s.constant + k⟩

/-- Modelled from the spec: a linear literal `sum op 0`. -/
structure LinearLit where
  sum : LinearSum
  op : CmpOp
deriving DecidableEq, Repr

/-- Modelled from the spec: a constraint is a disjunction of Boolean
literals and linear literals. -/
structure Constraint where
  boolLit : List BoolLit
  linearLit : List LinearLit
deriving DecidableEq, Repr

/-- Modelled from the spec: the non-clausal extra constraints. -/
inductive ExtraConstraint where
  | activeVerticesConnected (vertices : List BoolLit) (edges : List (Nat × Nat))
  | mul (x y m : Nat)
deriving DecidableEq, Repr

/-- Modelled from the spec: the configuration options the encoder
recognizes (`config.rs` is not in the source tree). -/
structure Config where
  useDirectEncoding : Bool
  directEncodingForBinaryVars : Bool
  forceUseLogEncoding : Bool
  domainProductThreshold : Nat
  nativeLinearEncodingTerms : Nat
  nativeLinearEncodingDomainProductThreshold : Nat
deriving DecidableEq, Repr

/-- Order encoding of an integer variable (encoder.rs): `lits[i]` asserts
that the value is at least `domain[i+1]`. -/
structure OrderEncoding where
  domain : List Int
  lits : List Lit
deriving DecidableEq, Repr

/-- Range of an order-encoded variable (encoder.rs `OrderEncoding::range`). -/
def OrderEncoding.range (e : OrderEncoding) : Range :=
  if e.domain.isEmpty then Range.empty
  else ⟨e.domain.headD 0, e.domain.getLastD 0⟩

/-- Direct encoding of an integer variable (encoder.rs): `lits[i]` asserts
that the value equals `domain[i]`. -/
structure DirectEncoding where
  domain : List Int
  lits : List Lit
deriving DecidableEq, Repr

/-- Range of a direct-encoded variable (encoder.rs `DirectEncoding::range`). -/
def DirectEncoding.range (e : DirectEncoding) : Range :=
  if e.domain.isEmpty then Range.empty
  else ⟨e.domain.headD 0, e.domain.getLastD 0⟩

/-- Log encoding of an integer variable (encoder.rs): the value equals
the binary number spelled by `lits`, within `range`. -/
structure LogEncoding where
  lits : List Lit
  range : Range
deriving DecidableEq, Repr

/-- An integer variable's encoding: exactly one of the three variants is
populated (encoder.rs `Encoding`). -/
structure Encoding where
  orderEncoding : Option OrderEncoding
  directEncoding : Option DirectEncoding
  logEncoding : Option LogEncoding
deriving DecidableEq, Repr

/-- Smart constructor (encoder.rs `Encoding::order_encoding`). -/
def Encoding.ofOrder (e : OrderEncoding) : Encoding := ⟨some e, none, none⟩

/-- Smart constructor (encoder.rs `Encoding::direct_encoding`). -/
def Encoding.ofDirect (e : DirectEncoding) : Encoding := ⟨none, some e, none⟩

/-- Smart constructor (encoder.rs `Encoding::log_encoding`). -/
def Encoding.ofLog (e : LogEncoding) : Encoding := ⟨none, none, some e⟩

/-- Encoder.rs `Encoding::is_direct_encoding`. -/
def Encoding.isDirectEncoding (e : Encoding) : Bool := e.directEncoding.isSome

/-- Encoder.rs `Encoding::is_direct_or_order_encoding`. -/
def Encoding.isDirectOrOrderEncoding (e : Encoding) : Bool :=
  e.orderEncoding.isSome || e.directEncoding.isSome

/-- Encoder.rs `Encoding::range`: the range accessor common to the three
variants (the source panics when none is populated; the all-`none` case
is unreachable for encodings the encoder builds). -/
def Encoding.range (e : Encoding) : Range :=
  match e.orderEncoding with
  | some oe => oe.range
  | none =>
    match e.directEncoding with
    | some de => de.range
    | none =>
      match e.logEncoding with
      | some le => le.range
      | none => Range.empty

/-- Pad-and-set on a list of optional entries: models writing into a
growable table keyed by variable index. -/
def setIdx (l : List (Option α)) (i : Nat) (x : α) : List (Option α) :=
  match l, i with
  | [], 0 => [some x]
  | [], n + 1 => none :: setIdx [] n x
  | _ :: rest, 0 => some x :: rest
  | y :: rest, n + 1 => y :: setIdx rest n x

/-- Lookup on a growable table: indices beyond the end are unassigned. -/
def getIdx (l : List (Option α)) (i : Nat) : Option α := (l.getD i none)

/-- Encoder.rs `EncodeMap`: the persistent binding from CSP variables to
SAT literals / integer encodings (the underlying `ConvertMap` of util.rs
is modelled as a growable table). -/
structure EncodeMap where
  boolMap : List (Option Lit)
  intMap : List (Option Encoding)
deriving DecidableEq, Repr

/-- The empty encode map (encoder.rs `EncodeMap::new`). -/
def EncodeMap.new : EncodeMap := ⟨[], []⟩

/-- Lookup of a Boolean variable's SAT literal. -/
def EncodeMap.boolGet (m : EncodeMap) (v : Nat) : Option Lit := getIdx m.boolMap v

/-- Lookup of an integer variable's encoding. -/
def EncodeMap.intGet (m : EncodeMap) (v : Nat) : Option Encoding := getIdx m.intMap v

/-- Modelled from the spec: a SAT model assigns a truth value to every
SAT variable. -/
def SATModel := Nat → Bool

/-- Modelled from the spec: truth value of a literal under a model
(`SATModel::assignment_lit`). -/
def SATModel.assignmentLit (m : SATModel) (l : Lit) : Bool :=
  if l.neg then !(m l.var) else m l.var

/-- Binary search of encoder.rs `get_int_value_checked` (order-encoding
branch), with the vector accesses made explicit: `none` models the Rust
index-out-of-bounds panic.  `truth` is the list of the literals' truth
values.  Translated from the loop
`while left < right { mid = (left+right+1)/2; if truth[mid-1] ... }`.
The loop strictly shrinks the bracket `right - left`, so running it with
`fuel` larger than the initial bracket width is exact; exhausted fuel
(unreachable for the callers below) also yields `none`. -/
def orderSearch (truth : List Bool) : Nat → Nat → Nat → Option Nat
  | 0, _, _ => none
  | fuel + 1, left, right =>
    if left < right then
      let mid := (left + right + 1) / 2
      match truth.get? (mid - 1) with
      | none => none
      | some b =>
        if b then orderSearch truth fuel mid right else orderSearch truth fuel left (mid - 1)
    else some left

/-- Encoder.rs `get_int_value_checked`, direct-encoding branch: scan the
indicator literals, aborting (`.error`) when a second true indicator is
found or when none is true, as the source asserts. -/
def directScan (model : SATModel) (domain : List Int) (lits : List Lit)
    (idxs : List Nat) (ret : Option Int) : Except String Int :=
  match idxs with
  | [] =>
    match ret with
    | some d => .ok d
    | none => .error "no indicator bits are set for a direct-encoded variable"
  | i :: rest =>
    if model.assignmentLit (lits.getD i ⟨0, false⟩) then
      match ret with
      | some _ => .error "multiple indicator bits are set for a direct-encoded variable"
      | none =>
        match domain.get? i with
        | some d => directScan model domain lits rest (some d)
        | none => .error "index out of range"
    else directScan model domain lits rest ret

/-- Encoder.rs `get_int_value_checked`, log-encoding branch: rebuild the
value from the bit literals (`ret |= 1 << i`). -/
def logValue (model : SATModel) (lits : List Lit) : Nat :=
  (List.range lits.length).foldl
    (fun acc i => if model.assignmentLit (lits.getD i ⟨0, false⟩) then acc ||| (1 <<< i) else acc) 0

/-- Encoder.rs `EncodeMap::get_int_value_checked`: decode an integer
variable's value from a SAT model.  `.error` models the fatal assertion
failures and index panics of the source; `.ok none` is the result for a
variable with no encoding. -/
def EncodeMap.getIntValueChecked (em : EncodeMap) (model : SATModel) (v : Nat) :
    Except String (Option Int) :=
  match em.intGet v with
  | none => .ok none
  | some enc =>
    match enc.orderEncoding with
    | some oe =>
      match orderSearch (oe.lits.map model.assignmentLit) (oe.lits.length + 1) 0 oe.lits.length with
      | none => .error "index out of range"
      | some left =>
        match oe.domain.get? left with
        | some d => .ok (some d)
        | none => .error "index out of range"
    | none =>
      match enc.directEncoding with
      | some de =>
        match directScan model de.domain de.lits (List.range de.lits.length) none with
        | .ok d => .ok (some d)
        | .error e => .error e
      | none =>
        match enc.logEncoding with
        | some le => .ok (some (logValue model le.lits))
        | none => .error "no encoding is populated"

/-- Flat append-only clause container (encoder.rs `ClauseSet`): a literal
array and an index array; the `i`-th clause is `data[indices[i]..indices[i+1]]`. -/
structure ClauseSet where
  data : List Lit
  indices : List Nat
deriving DecidableEq, Repr

/-- Encoder.rs `ClauseSet::new`. -/
def ClauseSet.new : ClauseSet := ⟨[], [0]⟩

/-- Encoder.rs `ClauseSet::len`. -/
def ClauseSet.len (cs : ClauseSet) : Nat := cs.indices.length - 1

/-- Encoder.rs `ClauseSet::push`. -/
def ClauseSet.push (cs : ClauseSet) (clause : List Lit) : ClauseSet :=
  ⟨cs.data ++ clause, cs.indices ++ [cs.data.length + clause.length]⟩

/-- Encoder.rs `ClauseSet::append`: concatenate another buffer, shifting
its indices by the current data length. -/
def ClauseSet.append (cs other : ClauseSet) : ClauseSet :=
  ⟨cs.data ++ other.data, cs.indices ++ (other.indices.drop 1).map (· + cs.data.length)⟩

/-- Encoder.rs `ClauseSet::index`: the `i`-th stored clause. -/
def ClauseSet.get (cs : ClauseSet) (i : Nat) : List Lit :=
  (cs.data.take (cs.indices.getD (i + 1) 0)).drop (cs.indices.getD i 0)

/-- The stored clauses in order. -/
def ClauseSet.toList (cs : ClauseSet) : List (List Lit) :=
  (List.range cs.len).map cs.get

/-- Push a list of clauses in order. -/
def ClauseSet.pushAll (cs : ClauseSet) (clauses : List (List Lit)) : ClauseSet :=
  clauses.foldl ClauseSet.push cs

/-- Encoder.rs `CheckedInt::max_value()` (`i32::MAX`). -/
def checkedIntMax : Int := 2147483647

/-- Encoder.rs `ExtendedLit`: a literal or a constant truth value. -/
inductive ExtendedLit where
  | isTrue
  | isFalse
  | lit (l : Lit)
deriving DecidableEq, Repr

/-- Encoder.rs `LinearInfoForOrderEncoding`: an order encoding together
with the coefficient of its variable in the linear sum under encoding. -/
structure LinearInfoForOrderEncoding where
  coef : Int
  encoding : OrderEncoding
deriving DecidableEq, Repr

namespace LinearInfoForOrderEncoding

/-- Encoder.rs `domain_size`. -/
def domainSize (info : LinearInfoForOrderEncoding) : Nat := info.encoding.domain.length

/-- Encoder.rs `domain(j)`: the `j`-th smallest domain value after
normalizing negative coefficients. -/
def domainAt (info : LinearInfoForOrderEncoding) (j : Nat) : Int :=
  if 0 < info.coef then info.encoding.domain.getD j 0 * info.coef
  else info.encoding.domain.getD (info.encoding.domain.length - 1 - j) 0 * info.coef

/-- Encoder.rs `domain_min`. -/
def domainMin (info : LinearInfoForOrderEncoding) : Int := info.domainAt 0

/-- Encoder.rs `domain_max`. -/
def domainMax (info : LinearInfoForOrderEncoding) : Int := info.domainAt (info.domainSize - 1)

/-- Encoder.rs `at_least(j)`: the literal asserting the (normalized)
value is at least `domain(j)` (the source asserts `0 < j < |domain|`). -/
def atLeast (info : LinearInfoForOrderEncoding) (j : Nat) : Lit :=
  if 0 < info.coef then info.encoding.lits.getD (j - 1) ⟨0, false⟩
  else (info.encoding.lits.getD (info.encoding.domain.length - 1 - j) ⟨0, false⟩).inv

/-- Binary-search loop of `at_least_val`; the bracket `right - left`
strictly shrinks, so fuel bounding the initial width makes this exact. -/
def atLeastValGo (info : LinearInfoForOrderEncoding) (val : Int) :
    Nat → Nat → Nat → Nat
  | 0, left, _ => left
  | fuel + 1, left, right =>
    if left < right then
      let mid := (left + right) / 2
      if val ≤ info.domainAt mid then atLeastValGo info val fuel left mid
      else atLeastValGo info val fuel (mid + 1) right
    else left

/-- Encoder.rs `at_least_val`: the literal asserting `x ≥ val` under the
assumption that `x` is in the domain. -/
def atLeastVal (info : LinearInfoForOrderEncoding) (val : Int) : ExtendedLit :=
  let domSize := info.domainSize
  if val ≤ info.domainAt 0 then .isTrue
  else if info.domainAt (domSize - 1) < val then .isFalse
  else .lit (info.atLeast (atLeastValGo info val domSize 0 (domSize - 1)))

end LinearInfoForOrderEncoding

/-- Encoder.rs `LinearInfoForDirectEncoding`. -/
structure LinearInfoForDirectEncoding where
  coef : Int
  encoding : DirectEncoding
deriving DecidableEq, Repr

namespace LinearInfoForDirectEncoding

/-- Encoder.rs `domain_size`. -/
def domainSize (info : LinearInfoForDirectEncoding) : Nat := info.encoding.domain.length

/-- Encoder.rs `domain(j)` after normalizing negative coefficients. -/
def domainAt (info : LinearInfoForDirectEncoding) (j : Nat) : Int :=
  if 0 < info.coef then info.encoding.domain.getD j 0 * info.coef
  else info.encoding.domain.getD (info.encoding.domain.length - 1 - j) 0 * info.coef

/-- Encoder.rs `domain_min`. -/
def domainMin (info : LinearInfoForDirectEncoding) : Int := info.domainAt 0

/-- Encoder.rs `domain_max`. -/
def domainMax (info : LinearInfoForDirectEncoding) : Int := info.domainAt (info.domainSize - 1)

/-- Encoder.rs `equals(j)`: the literal asserting the (normalized) value
equals `domain(j)`. -/
def equalsAt (info : LinearInfoForDirectEncoding) (j : Nat) : Lit :=
  if 0 < info.coef then info.encoding.lits.getD j ⟨0, false⟩
  else info.encoding.lits.getD (info.domainSize - 1 - j) ⟨0, false⟩

/-- Binary-search loop of `equals_val` (fuel bounds the shrinking
bracket, as in `atLeastValGo`). -/
def equalsValGo (info : LinearInfoForDirectEncoding) (val : Int) :
    Nat → Nat → Nat → Nat
  | 0, left, _ => left
  | fuel + 1, left, right =>
    if left < right then
      let mid := (left + right) / 2
      if val ≤ info.domainAt mid then equalsValGo info val fuel left mid
      else equalsValGo info val fuel (mid + 1) right
    else left

/-- Encoder.rs `equals_val`: the literal asserting `x = val`, or `none`
when `val` is not in the domain. -/
def equalsVal (info : LinearInfoForDirectEncoding) (val : Int) : Option Lit :=
  let left := equalsValGo info val info.domainSize 0 (info.domainSize - 1)
  if info.domainAt left == val then some (info.equalsAt left) else none

end LinearInfoForDirectEncoding

/-- Encoder.rs `LinearInfo`: a term is either order- or direct-encoded. -/
inductive LinearInfo where
  | order (info : LinearInfoForOrderEncoding)
  | direct (info : LinearInfoForDirectEncoding)
deriving DecidableEq, Repr

/-- Encoder.rs `is_unsatisfiable_linear`, range-accumulation loop:
`range = range + range(var) * coef` over the terms (`none` models the
unwrap panic on an unencoded variable). -/
def sumRangeAux (map : EncodeMap) : List (Nat × Int) → Range → Option Range
  | [], acc => some acc
  | (v, c) :: rest, acc =>
    match map.intGet v with
    | none => none
    | some enc => sumRangeAux map rest (acc.add (enc.range.mulScalar c))

/-- Encoder.rs `is_unsatisfiable_linear`: decide whether the literal's
operator contradicts the interval range of its sum. -/
def isUnsatisfiableLinear (map : EncodeMap) (lit : LinearLit) : Option Bool :=
  match sumRangeAux map lit.sum.term (Range.constant lit.sum.constant) with
  | none => none
  | some range =>
    some (match lit.op with
      | .eq => decide (0 < range.low) || decide (range.high < 0)
      | .ne => decide (range.low = 0) && decide (range.high = 0)
      | .le => decide (0 < range.low)
      | .lt => decide (0 ≤ range.low)
      | .ge => decide (range.high < 0)
      | .gt => decide (range.high ≤ 0))

/-- Encoder.rs `EncoderKind`. -/
inductive EncoderKind where
  | mixedGe
  | directSimple
  | directEqNe
  | log
deriving DecidableEq, Repr

/-- Encoder.rs `suggest_encoder` (`none` models both the unwrap panic on
an unencoded variable — which phase 1 of `encode` rules out — and the
final `panic!("no encoder is applicable")`). -/
def suggestEncoder (map : EncodeMap) (lit : LinearLit) : Option EncoderKind :=
  match lit.sum.term.mapM (fun p => map.intGet p.1) with
  | none => none
  | some encs =>
    let firstDirect := match encs with
      | e :: _ => e.isDirectEncoding
      | [] => false
    if lit.sum.len == 1 && firstDirect then some .directSimple
    else if (lit.op == .eq || lit.op == .ne) && encs.all (·.isDirectEncoding) then
      some .directEqNe
    else if encs.all (·.isDirectOrOrderEncoding) then some .mixedGe
    else if encs.all (fun e => e.logEncoding.isSome) then some .log
    else none

/-- Loop body of encoder.rs `encode_simple_linear_direct_encoding`:
collect `oks` (literals of passing domain values) and `ngs` (negated
literals of failing values); `none` models the index panic when the
literal vector is shorter than the domain. -/
def collectSimple (op : CmpOp) (coef k : Int) : List Int → List Lit →
    Option (List Lit × List Lit)
  | [], _ => some ([], [])
  | _ :: _, [] => none
  | d :: ds, l :: ls =>
    match collectSimple op coef k ds ls with
    | none => none
    | some (oks, ngs) =>
      if op.compare (d * coef + k) 0 then some (l :: oks, ngs)
      else some (oks, l.inv :: ngs)

/-- Encoder.rs `encode_simple_linear_direct_encoding`: encode a one-term
literal over a direct-encoded variable as at most one clause.  The outer
`none` models the panics (missing encoding, term count ≠ 1, short
literal vector); the inner option is the source's return value. -/
def encodeSimpleLinearDirectEncoding (map : EncodeMap) (lit : LinearLit) :
    Option (Option (List Lit)) :=
  match lit.sum.term with
  | [(v, coef)] =>
    match map.intGet v with
    | none => none
    | some enc =>
      match enc.directEncoding with
      | none => none
      | some de =>
        match collectSimple lit.op coef lit.sum.constant de.domain de.lits with
        | none => none
        | some (oks, ngs) =>
          some (if oks.length == de.domain.length then none
                else if ngs.length == 1 then some ngs
                else some oks)
  | _ => none

/-- Recursive clause enumeration of encoder.rs
`encode_linear_ge_mixed_from_info::encode_sub`, written on the remaining
term list (`info[idx..]`); the returned list holds the clauses pushed to
`clauses_buf` in order.  In the one-remaining-order-term case the source
panics on `ExtendedLit::False`; that branch is unreachable (the entry
check guarantees `upper_bound ≥ 0`) and is rendered as no clause. -/
def geMixedSub : List LinearInfo → List Lit → Int → Option Int → List (List Lit)
  | info, clause, upperBound, minRelaxOnErasure =>
    if upperBound < 0 then
      match minRelaxOnErasure with
      | some m => if upperBound + m < 0 then [] else [clause]
      | none => [clause]
    else
      match info with
      | [] => []
      | .order oe :: rest =>
        if rest.isEmpty then
          match oe.atLeastVal (-(upperBound - oe.domainMax)) with
          | .isTrue => []
          | .isFalse => []
          | .lit l => [clause ++ [l]]
        else
          ((List.range (oe.domainSize - 1)).flatMap (fun i =>
            let value := oe.domainAt i
            geMixedSub rest (clause ++ [oe.atLeast (i + 1)])
              (upperBound - oe.domainMax + value) none))
          ++ geMixedSub rest clause upperBound minRelaxOnErasure
      | .direct de :: rest =>
        ((List.range (de.domainSize - 1)).flatMap (fun i =>
          let value := de.domainAt i
          geMixedSub rest (clause ++ [(de.equalsAt i).inv])
            (upperBound - de.domainMax + value)
            (some (min (minRelaxOnErasure.getD checkedIntMax) (de.domainMax - value)))))
        ++ geMixedSub rest clause upperBound minRelaxOnErasure

/-- Encoder.rs `encode_linear_ge_mixed_from_info`. -/
def encodeLinearGeMixedFromInfo (info : List LinearInfo) (constant : Int) : ClauseSet :=
  let upperBound := info.foldl
    (fun acc l => acc + match l with
      | .order oe => oe.domainMax
      | .direct de => de.domainMax) constant
  ClauseSet.new.pushAll (geMixedSub info [] upperBound none)

/-- Encoder.rs `encode_linear_ge_mixed`: build the info list (order
encoding preferred; a term with neither order nor direct encoding is
silently skipped, as in the source) and encode. -/
def encodeLinearGeMixed (map : EncodeMap) (sum : LinearSum) : Option ClauseSet :=
  match sum.term.mapM (fun p => map.intGet p.1) with
  | none => none
  | some encs =>
    let info := (sum.term.zip encs).filterMap (fun pe =>
      match pe.2.orderEncoding with
      | some oe => some (LinearInfo.order ⟨pe.1.2, oe⟩)
      | none =>
        match pe.2.directEncoding with
        | some de => some (LinearInfo.direct ⟨pe.1.2, de⟩)
        | none => none)
    some (encodeLinearGeMixedFromInfo info sum.constant)

/-- Encoder.rs `encode_linear_eq_direct_two_terms`, row helper: for each
index `i` of `x`, the clause `¬equals_x(i) ∨ equals_y(-constant - x.domain(i))`
(the second literal is absent when the value is outside `y`'s domain). -/
def eqDirectTwoTermsRows (x y : LinearInfoForDirectEncoding) (constant : Int) :
    List (List Lit) :=
  (List.range x.domainSize).map (fun i =>
    (x.equalsAt i).inv :: (y.equalsVal (-constant - x.domainAt i)).toList)

/-- Encoder.rs `encode_linear_eq_direct_two_terms`. -/
def encodeLinearEqDirectTwoTerms (a b : LinearInfoForDirectEncoding) (constant : Int) :
    ClauseSet :=
  ClauseSet.new.pushAll (eqDirectTwoTermsRows a b constant ++ eqDirectTwoTermsRows b a constant)

/-- Recursive clause enumeration of encoder.rs
`encode_linear_eq_direct::encode_sub`.  Note the faithful rendering of
the source's emission test: `let mut cannot_prune = true;` followed by
two conditionals that also assign `true`, so the accumulated clause is
pushed whenever the running bounds are violated — the pruning tests
against `min_relax_for_lb` / `min_relax_for_ub` are dead code. -/
def eqDirectSub : List LinearInfoForDirectEncoding → List Lit → Int → Int →
    Option Int → Option Int → List (List Lit)
  | info, clause, lowerBound, upperBound, minRelaxForLb, minRelaxForUb =>
    if 0 < lowerBound ∨ upperBound < 0 then
      let cannotPrune := true
      let cannotPrune :=
        if decide (0 < lowerBound)
            && (minRelaxForLb.map (fun m => decide (lowerBound - m ≤ 0))).getD true
        then true else cannotPrune
      let cannotPrune :=
        if decide (upperBound < 0)
            && (minRelaxForUb.map (fun m => decide (0 ≤ upperBound + m))).getD true
        then true else cannotPrune
      if cannotPrune then [clause] else []
    else
      match info with
      | [] => []
      | [de] =>
        let prevLb := lowerBound - de.domainMin
        let prevUb := upperBound - de.domainMax
        let possibleCand := (List.range de.domainSize).filterMap (fun i =>
          let value := de.domainAt i
          if prevUb + value < 0 ∨ 0 < prevLb + value then none
          else some (de.equalsAt i))
        if possibleCand.length = de.domainSize then []
        else [clause ++ possibleCand]
      | de :: rest =>
        ((List.range de.domainSize).flatMap (fun i =>
          let value := de.domainAt i
          eqDirectSub rest (clause ++ [(de.equalsAt i).inv])
            (lowerBound - de.domainMin + value)
            (upperBound - de.domainMax + value)
            (some (min (minRelaxForLb.getD checkedIntMax) (value - de.domainMin)))
            (some (min (minRelaxForUb.getD checkedIntMax) (de.domainMax - value)))))
        ++ eqDirectSub rest clause lowerBound upperBound minRelaxForLb minRelaxForUb

/-- Encoder.rs `encode_linear_eq_direct` after the info list has been
collected and stably sorted by literal-vector length. -/
def encodeLinearEqDirectFromInfo (info : List LinearInfoForDirectEncoding)
    (constant : Int) : ClauseSet :=
  match info with
  | [a, b] => encodeLinearEqDirectTwoTerms a b constant
  | _ =>
    let lowerBound := info.foldl (fun acc de => acc + de.domainMin) constant
    let upperBound := info.foldl (fun acc de => acc + de.domainMax) constant
    ClauseSet.new.pushAll (eqDirectSub info [] lowerBound upperBound none none)

/-- Encoder.rs `encode_linear_eq_direct` (`none` models the
`as_direct_encoding` panic on a non-direct-encoded variable). -/
def encodeLinearEqDirect (map : EncodeMap) (sum : LinearSum) : Option ClauseSet :=
  match sum.term.mapM (fun p => (map.intGet p.1).bind
      (fun e => e.directEncoding.map (fun de => LinearInfoForDirectEncoding.mk p.2 de))) with
  | none => none
  | some info =>
    some (encodeLinearEqDirectFromInfo
      (sortBy (fun x y => decide (x.encoding.lits.length ≤ y.encoding.lits.length)) info)
      sum.constant)

/-- Recursive clause enumeration of encoder.rs
`encode_linear_ne_direct::encode_sub`.  At the last term the source
asserts that at most one domain value completes the sum to 0 (domains
are strictly ascending); we forbid the first hit accordingly. -/
def neDirectSub : List LinearInfoForDirectEncoding → List Lit → Int → Int →
    List (List Lit)
  | info, clause, lowerBound, upperBound =>
    if 0 < lowerBound ∨ upperBound < 0 then []
    else
      match info with
      | [] => if lowerBound == 0 then [clause] else []
      | [de] =>
        let prevVal := lowerBound - de.domainMin
        let forbidden := (List.range de.domainSize).filterMap (fun i =>
          if prevVal + de.domainAt i == 0 then some (de.equalsAt i) else none)
        match forbidden with
        | [] => []
        | f :: _ => [clause ++ [f.inv]]
      | de :: rest =>
        (List.range de.domainSize).flatMap (fun i =>
          let value := de.domainAt i
          neDirectSub rest (clause ++ [(de.equalsAt i).inv])
            (lowerBound - de.domainMin + value)
            (upperBound - de.domainMax + value))

/-- Encoder.rs `encode_linear_ne_direct` (no sorting, unlike `eq`). -/
def encodeLinearNeDirect (map : EncodeMap) (sum : LinearSum) : Option ClauseSet :=
  match sum.term.mapM (fun p => (map.intGet p.1).bind
      (fun e => e.directEncoding.map (fun de => LinearInfoForDirectEncoding.mk p.2 de))) with
  | none => none
  | some info =>
    let lowerBound := info.foldl (fun acc de => acc + de.domainMin) sum.constant
    let upperBound := info.foldl (fun acc de => acc + de.domainMax) sum.constant
    some (ClauseSet.new.pushAll (neDirectSub info [] lowerBound upperBound))

/-- Truth values that are monotone non-increasing along the literal
vector: whenever a later literal is true, every earlier one is too.
This is the invariant the order encoding's structural clauses
`lits[i] → lits[i-1]` enforce on models. -/
def MonotoneTruth (t : List Bool) : Prop :=
  ∀ i j, i ≤ j → t.getD j false = true → t.getD i false = true

/-- Largest index of a `true` entry of a Boolean list, if any. -/
def largestTrueIdx : List Bool → Option Nat
  | [] => none
  | b :: rest =>
    match largestTrueIdx rest with
    | some j => some (j + 1)
    | none => if b then some 0 else none

/-- Statement of claim C3 at one instance: decoding an order-encoded
variable returns `domain[j]` for `j` the largest index with `lits[j]`
true in the model (`j = 0` when none is true). -/
def c3ClaimAt (em : EncodeMap) (model : SATModel) (v : Nat) : Prop :=
  match em.intGet v with
  | some enc =>
    match enc.orderEncoding with
    | some oe =>
      em.getIntValueChecked model v =
        .ok (some (oe.domain.getD ((largestTrueIdx (oe.lits.map model.assignmentLit)).getD 0) 0))
    | none => True
  | none => True

/-- Order-encoded variable with domain `[3, 5, 7]` used to refute C3. -/
def c3CounterMap : EncodeMap :=
  ⟨[], [some (Encoding.ofOrder ⟨[3, 5, 7], [⟨0, false⟩, ⟨1, false⟩]⟩)]⟩

/-- Model whose literal truth values are `[false, true]` (not monotone). -/
def c3CounterModel : SATModel := fun n => n == 1

/-- Order-encoded variable with domain `[3, 5, 7]` used to witness the
amended C3. -/
def c3WitnessMap : EncodeMap :=
  ⟨[], [some (Encoding.ofOrder ⟨[3, 5, 7], [⟨0, false⟩, ⟨1, false⟩]⟩)]⟩

/-- Model whose literal truth values are `[true, false]` (monotone). -/
def c3WitnessModel : SATModel := fun n => n == 0

/-- Order-encoded variable with a non-monotone model used to witness C10. -/
def c10WitnessMap : EncodeMap :=
  ⟨[], [some (Encoding.ofOrder ⟨[3, 5, 7], [⟨0, false⟩, ⟨1, false⟩]⟩)]⟩

/-- Model whose literal truth values are `[false, true]`: not monotone. -/
def c10WitnessModel : SATModel := fun n => n == 1

/-- Direct-encoded variable with domain `[4, 6, 9]` used to witness C7. -/
def c7WitnessMap : EncodeMap :=
  ⟨[], [some (Encoding.ofDirect ⟨[4, 6, 9], [⟨0, false⟩, ⟨1, false⟩, ⟨2, false⟩]⟩)]⟩

/-- Model in which exactly the second indicator literal is true. -/
def c7WitnessModel : SATModel := fun n => n == 1

/-- Three direct-encoded variables (domains `[0,1,10]`, `[0,9,10]`,
`[0,9,10]`) exhibiting the dead pruning code of `encode_linear_eq_direct`. -/
def c4BugMap : EncodeMap :=
  ⟨[], [some (Encoding.ofDirect ⟨[0, 1, 10], [⟨0, false⟩, ⟨1, false⟩, ⟨2, false⟩]⟩),
        some (Encoding.ofDirect ⟨[0, 9, 10], [⟨3, false⟩, ⟨4, false⟩, ⟨5, false⟩]⟩),
        some (Encoding.ofDirect ⟨[0, 9, 10], [⟨6, false⟩, ⟨7, false⟩, ⟨8, false⟩]⟩)]⟩

/-- The linear sum `x0 + x1 + x2 - 9` over the three variables above. -/
def c4BugSum : LinearSum := ⟨[(0, 1), (1, 1), (2, 1)], -9⟩

/-- Direct-encoded variable with domain `[-2, 0, 3]` used to witness C5. -/
def c5WitnessMap : EncodeMap :=
  ⟨[], [some (Encoding.ofDirect ⟨[-2, 0, 3], [⟨0, false⟩, ⟨1, false⟩, ⟨2, false⟩]⟩)]⟩

/-- The literal `x + 1 ≥ 0` over the variable above: only `-2` fails. -/
def c5WitnessLit : LinearLit := ⟨⟨[(0, 1)], 1⟩, .ge⟩

/-- Modelled from the spec: the SAT engine's growing state — a variable
counter, the added clauses, and the two engine-level primitives the
encoder forwards to (`add_order_encoding_linear` and
`add_active_vertices_connected`), recorded verbatim. -/
structure SATState where
  numVars : Nat
  clauses : List (List Lit)
  orderLinears : List (List (List Lit) × List (List Int) × List Int × Int)
  connectivity : List (List Lit × List (Nat × Nat))
deriving DecidableEq, Repr

/-- The empty SAT instance. -/
def SATState.empty : SATState := ⟨0, [], [], []⟩

/-- Modelled from the spec: the variable table of the normalized CSP
(`NormCSPVars`); integer variables are indices into `intVarDefs`. -/
structure NormVars where
  intVarDefs : List IntVarRepresentation
deriving DecidableEq, Repr

/-- The mutable state threaded through `encode`: the normalized CSP
(variables, the two pending-constraint queues and the
`num_encoded_vars` watermark), the SAT instance and the encode map. -/
structure EncState where
  vars : NormVars
  constraints : List Constraint
  extraConstraints : List ExtraConstraint
  numEncodedVars : Nat
  sat : SATState
  map : EncodeMap
deriving DecidableEq, Repr

/-- State-and-panic monad for the encoder: Rust panics and failed
assertions become `.error`. -/
def EncM (α : Type) : Type := EncState → Except String (α × EncState)

/-- Monadic unit for `EncM`. -/
def EncM.pureM (a : α) : EncM α := fun s => .ok (a, s)

/-- Monadic sequencing for `EncM`. -/
def EncM.bindM (x : EncM α) (f : α → EncM β) : EncM β := fun s =>
  match x s with
  | .ok (a, s') => f a s'
  | .error e => .error e

instance : Monad EncM where
  pure := EncM.pureM
  bind := EncM.bindM

/-- A Rust panic or failed assertion. -/
def EncM.abort (msg : String) : EncM α := fun _ => .error msg

/-- Read the whole state. -/
def EncM.getState : EncM EncState := fun s => .ok (s, s)

/-- Lift an optional value, aborting on `none`. -/
def EncM.ofOption (msg : String) : Option α → EncM α
  | some a => EncM.pureM a
  | none => EncM.abort msg

/-- Modelled from the spec: `SAT::new_var`. -/
def newVar : EncM Nat := fun s =>
  .ok (s.sat.numVars, { s with sat := { s.sat with numVars := s.sat.numVars + 1 } })

/-- Modelled from the spec: `SAT::new_vars_as_lits`. -/
def newVarsAsLits (n : Nat) : EncM (List Lit) := fun s =>
  .ok ((List.range n).map (fun i => ⟨s.sat.numVars + i, false⟩),
       { s with sat := { s.sat with numVars := s.sat.numVars + n } })

/-- Modelled from the spec: `SAT::add_clause`. -/
def addClause (c : List Lit) : EncM Unit := fun s =>
  .ok ((), { s with sat := { s.sat with clauses := s.sat.clauses ++ [c] } })

/-- Add a list of clauses in order. -/
def addClauses : List (List Lit) → EncM Unit
  | [] => EncM.pureM ()
  | c :: rest => do
    addClause c
    addClauses rest

/-- Add every clause of a clause set in order (the
`for i in 0..clauses.len() { add_clause(&clauses[i]) }` idiom). -/
def addClauseSet (cs : ClauseSet) : EncM Unit := addClauses cs.toList

/-- Modelled from the spec: `SAT::add_order_encoding_linear`, recorded
verbatim as an engine-level constraint. -/
def addOrderEncodingLinear (lits : List (List Lit)) (domain : List (List Int))
    (coefs : List Int) (constant : Int) : EncM Unit := fun s =>
  .ok ((), { s with sat :=
    { s.sat with orderLinears := s.sat.orderLinears ++ [(lits, domain, coefs, constant)] } })

/-- Modelled from the spec: `SAT::add_active_vertices_connected`,
forwarded verbatim. -/
def addActiveVerticesConnected (lits : List Lit) (edges : List (Nat × Nat)) : EncM Unit :=
  fun s => .ok ((), { s with sat :=
    { s.sat with connectivity := s.sat.connectivity ++ [(lits, edges)] } })

/-- Record a Boolean variable's SAT literal in the encode map. -/
def setBoolMapEntry (v : Nat) (l : Lit) : EncM Unit := fun s =>
  .ok ((), { s with map := { s.map with boolMap := setIdx s.map.boolMap v l } })

/-- Record an integer variable's encoding in the encode map. -/
def setIntMapEntry (v : Nat) (e : Encoding) : EncM Unit := fun s =>
  .ok ((), { s with map := { s.map with intMap := setIdx s.map.intMap v e } })

/-- Modelled from the spec: `NormCSPVars::int_var` (indexing panics on an
unknown variable). -/
def intVarRepr (v : Nat) : EncM IntVarRepresentation := fun s =>
  match s.vars.intVarDefs.get? v with
  | some r => .ok (r, s)
  | none => .error "unknown integer variable"

/-- Modelled from the spec: `NormCSPVars::new_int_var` appends a fresh
integer variable. -/
def newIntVar (r : IntVarRepresentation) : EncM Nat := fun s =>
  .ok (s.vars.intVarDefs.length, { s with vars := ⟨s.vars.intVarDefs ++ [r]⟩ })

/-- Encoder.rs `EncodeMap::convert_bool_var`: return the recorded SAT
literal, allocating a fresh positive literal on first use. -/
def convertBoolVar (v : Nat) : EncM Lit := do
  let st ← EncM.getState
  match st.map.boolGet v with
  | some x => pure x
  | none => do
    let nv ← newVar
    let ret : Lit := ⟨nv, false⟩
    setBoolMapEntry v ret
    pure ret

/-- Encoder.rs `EncodeMap::convert_bool_lit`. -/
def convertBoolLit (bl : BoolLit) : EncM Lit := do
  let l ← convertBoolVar bl.var
  pure (if bl.negated then l.inv else l)

/-- Convert a list of Boolean literals in order. -/
def convertBoolLits : List BoolLit → EncM (List Lit)
  | [] => pure []
  | b :: rest => do
    let l ← convertBoolLit b
    let ls ← convertBoolLits rest
    pure (l :: ls)

/-- The monotonicity clauses `lits[i] → lits[i-1]` (`i` from 1) emitted
by the order encoder. -/
def orderStructuralClauses (lits : List Lit) : List (List Lit) :=
  (List.range lits.length).filterMap (fun i =>
    if 1 ≤ i then some [(lits.getD i ⟨0, false⟩).inv, lits.getD (i - 1) ⟨0, false⟩]
    else none)

/-- Encoder.rs `convert_int_var_order_encoding`: idempotent; allocates
`|D|-1` literals and the monotonicity clauses for a `Domain` variable,
and reuses the converted condition literal for a `Binary` variable. -/
def convertIntVarOrderEncoding (v : Nat) : EncM Unit := do
  let st ← EncM.getState
  match st.map.intGet v with
  | some _ => pure ()
  | none => do
    let repr ← intVarRepr v
    match repr with
    | .domain d =>
      let dom := d.enumerate
      if dom.length = 0 then EncM.abort "empty domain"
      else do
        let lits ← newVarsAsLits (dom.length - 1)
        addClauses (orderStructuralClauses lits)
        setIntMapEntry v (Encoding.ofOrder ⟨dom, lits⟩)
    | .binary cond f t => do
      let c ← convertBoolLit cond
      setIntMapEntry v (Encoding.ofOrder ⟨[f, t], [c]⟩)

/-- The at-least-one clause plus the pairwise at-most-one clauses emitted
by the direct encoder (`i` outer from 1, `j` inner below `i`). -/
def directStructuralClauses (lits : List Lit) : List (List Lit) :=
  lits :: (List.range lits.length).flatMap (fun i =>
    (List.range i).map (fun j => [(lits.getD i ⟨0, false⟩).inv, (lits.getD j ⟨0, false⟩).inv]))

/-- Encoder.rs `convert_int_var_direct_encoding`: idempotent; allocates
`|D|` literals with the exactly-one clauses for a `Domain` variable, and
uses `[¬c, c]` for a `Binary` variable. -/
def convertIntVarDirectEncoding (v : Nat) : EncM Unit := do
  let st ← EncM.getState
  match st.map.intGet v with
  | some _ => pure ()
  | none => do
    let repr ← intVarRepr v
    match repr with
    | .domain d =>
      let dom := d.enumerate
      if dom.length = 0 then EncM.abort "empty domain"
      else do
        let lits ← newVarsAsLits dom.length
        addClauses (directStructuralClauses lits)
        setIntMapEntry v (Encoding.ofDirect ⟨dom, lits⟩)
    | .binary cond f t => do
      let c ← convertBoolLit cond
      setIntMapEntry v (Encoding.ofDirect ⟨[f, t], [c.inv, c]⟩)

/-- Number of bits of `32 - leading_zeros(n)` for a 32-bit value: the
position of the highest set bit plus one. -/
def bitLength (n : Nat) : Nat :=
  (List.range 32).foldl (fun acc i => if n.testBit i then i + 1 else acc) 0

/-- Lower-bound clauses of the log encoder: for each bit `i` set in
`low`, if all higher bits match `low` then bit `i` must be 1. -/
def logLowerBoundClauses (lowN : Nat) (nBits : Nat) (lits : List Lit) : List (List Lit) :=
  (List.range nBits).filterMap (fun i =>
    if lowN.testBit i then
      some (lits.getD i ⟨0, false⟩ ::
        (List.range' (i + 1) (nBits - (i + 1))).map (fun j =>
          if lowN.testBit j then (lits.getD j ⟨0, false⟩).inv else lits.getD j ⟨0, false⟩))
    else none)

/-- Upper-bound clauses of the log encoder: for each bit `i` clear in
`high`, if all higher bits match `high` then bit `i` must be 0. -/
def logUpperBoundClauses (highN : Nat) (nBits : Nat) (lits : List Lit) : List (List Lit) :=
  (List.range nBits).filterMap (fun i =>
    if highN.testBit i then none
    else
      some ((lits.getD i ⟨0, false⟩).inv ::
        (List.range' (i + 1) (nBits - (i + 1))).map (fun j =>
          if highN.testBit j then (lits.getD j ⟨0, false⟩).inv else lits.getD j ⟨0, false⟩)))

/-- Gap clauses of the log encoder: forbid every integer strictly between
consecutive domain values. -/
def logGapClauses (domain : List Int) (nBits : Nat) (lits : List Lit) : List (List Lit) :=
  (List.range domain.length).flatMap (fun i =>
    if 1 ≤ i then
      let gapLow := domain.getD (i - 1) 0 + 1
      let gapHigh := domain.getD i 0
      (List.range (gapHigh - gapLow).toNat).map (fun k =>
        let n := (gapLow + k).toNat
        (List.range nBits).map (fun j =>
          if n.testBit j then (lits.getD j ⟨0, false⟩).inv else lits.getD j ⟨0, false⟩))
    else [])

/-- Encoder.rs `convert_int_var_log_encoding`: idempotent; fails on a
negative domain floor or a `Binary` variable, otherwise allocates the
bit literals and emits bound and gap clauses. -/
def convertIntVarLogEncoding (v : Nat) : EncM Unit := do
  let st ← EncM.getState
  match st.map.intGet v with
  | some _ => pure ()
  | none => do
    let repr ← intVarRepr v
    match repr with
    | .domain d =>
      let low := d.lowerBound
      let high := d.upperBound
      if low < 0 then EncM.abort "negative values not supported in log encoding"
      else do
        let nBits := bitLength high.toNat
        let lits ← newVarsAsLits nBits
        addClauses (logLowerBoundClauses low.toNat nBits lits)
        addClauses (logUpperBoundClauses high.toNat nBits lits)
        addClauses (logGapClauses d.enumerate nBits lits)
        setIntMapEntry v (Encoding.ofLog ⟨lits, ⟨low, high⟩⟩)
    | .binary _ _ _ => EncM.abort "log encoding of a Binary variable is unsupported"

/-- Modelled from the spec: the set of values attainable by a variable's
representation. -/
def reprDomainVals : IntVarRepresentation → List Int
  | .domain d => d.enumerate
  | .binary _ f t => [f, t]

/-- Modelled from the spec: `NormCSPVars::get_domain_linear_sum` — the
domain of a linear sum, modelled as the exact set of attainable values
(sorted, without duplicates). -/
def getDomainLinearSum (vars : NormVars) (s : LinearSum) : Domain :=
  let vals := s.term.foldl (fun acc p =>
    acc.flatMap (fun x =>
      (reprDomainVals (vars.intVarDefs.getD p.1 (.domain ⟨[]⟩))).map (fun d => x + p.2 * d)))
    [s.constant]
  ⟨dedupSorted (sortBy (fun a b => decide (a ≤ b)) vals)⟩

/-- Lexicographic "less or equal" on `(domain size, variable, coefficient)`
triples: the pop order of the Rust `BinaryHeap<Reverse<_>>` min-heap. -/
def tripleLe (a b : Nat × Nat × Int) : Bool :=
  decide (a.1 < b.1) || (a.1 == b.1 &&
    (decide (a.2.1 < b.2.1) || (a.2.1 == b.2.1 && decide (a.2.2 ≤ b.2.2))))

/-- Build a linear sum from `(domain size, variable, coefficient)` terms
via `add_coef` (order independent, as with the Rust `BTreeMap`). -/
def sumOfTriples (ts : List (Nat × Nat × Int)) (base : LinearSum) : LinearSum :=
  ts.foldl (fun s t => s.addCoef t.2.1 t.2.2) base

/-- Loop of encoder.rs `decompose_linear_lit`: the min-heap is a list
kept sorted by `tripleLe`.  Every iteration either pops the top into
`pending` or aggregates at least two pending terms into one fresh
auxiliary order-encoded variable, so the total number of iterations is
bounded and the fuel passed by `decomposeLinearLit` cannot run out. -/
def decomposeLoop (config : Config) (opForAuxLits : CmpOp) (litConstant : Int) :
    Nat → List (Nat × Nat × Int) → List (Nat × Nat × Int) → Nat → List LinearLit →
    EncM (List LinearLit × List (Nat × Nat × Int))
  | 0, _, _, _, _ => EncM.abort "fuel exhausted in decompose loop"
  | fuel + 1, heap, pending, domProduct, ret =>
    match heap with
    | [] => pure (ret, pending)
    | top :: heapRest =>
      if config.domainProductThreshold ≤ domProduct * top.1 ∧ 2 ≤ pending.length ∧
          2 ≤ (top :: heapRest).length then do
        let auxSum := sumOfTriples pending LinearSum.empty
        let st ← EncM.getState
        let auxDom0 := getDomainLinearSum st.vars auxSum
        let remSum := sumOfTriples (top :: heapRest) LinearSum.empty
        let remDom := getDomainLinearSum st.vars remSum
        let auxDom := (auxDom0.refineUpperBound (-(litConstant + remDom.lowerBound))).refineLowerBound
          (-(litConstant + remDom.upperBound))
        let auxVar ← newIntVar (.domain auxDom)
        convertIntVarOrderEncoding auxVar
        let auxSum2 := auxSum.addCoef auxVar (-1)
        let st2 ← EncM.getState
        let auxDomSize ← EncM.ofOption "auxiliary variable lacks an order encoding"
          (((st2.map.intGet auxVar).bind (·.orderEncoding)).map (fun oe => oe.domain.length))
        decomposeLoop config opForAuxLits litConstant fuel
          (insertBy tripleLe (auxDomSize, auxVar, 1) (top :: heapRest)) []
          1 (ret ++ [LinearLit.mk auxSum2 opForAuxLits])
      else
        decomposeLoop config opForAuxLits litConstant fuel heapRest (pending ++ [top])
          (domProduct * top.1) ret

/-- Encoder.rs `decompose_linear_lit`: split a wide Ge/Eq/Ne literal
over order/direct-encoded variables by introducing auxiliary
order-encoded variables whenever the cumulative domain product would
exceed `config.domain_product_threshold`. -/
def decomposeLinearLit (config : Config) (lit : LinearLit) : EncM (List LinearLit) := do
  let opForAuxLits := if lit.op == .ge then CmpOp.ge else CmpOp.eq
  let st ← EncM.getState
  let heap0 ← EncM.ofOption "unencoded variable in decompose"
    (lit.sum.term.mapM (fun p =>
      ((st.map.intGet p.1).map (fun enc =>
        match enc.orderEncoding with
        | some oe => some ((oe.domain.length, p.1, p.2) : Nat × Nat × Int)
        | none =>
          match enc.directEncoding with
          | some de => some (de.domain.length, p.1, p.2)
          | none => none)).join))
  let heap := heap0.foldl (fun h t => insertBy tripleLe t h) []
  let r ← decomposeLoop config opForAuxLits lit.sum.constant
    (3 * heap.length + 3) heap [] 1 []
  let finalSum := sumOfTriples r.2 (LinearSum.ofConstant lit.sum.constant)
  pure (r.1 ++ [LinearLit.mk finalSum lit.op])

/-- Loop of encoder.rs `decompose_linear_lit_log`: while more than 6
terms remain, pack up to 6 terms of the larger sign queue into a fresh
log-encoded auxiliary variable.  Each round removes at least two terms
and adds one, so the total term count strictly decreases and the fuel
passed by `decomposeLinearLitLog` cannot run out. -/
def decomposeLogLoop (config : Config) (opForAuxLits : CmpOp) (litConstant : Int) :
    Nat → List (Nat × Int) → List (Nat × Int) → List LinearLit →
    EncM (List LinearLit × List (Nat × Int) × List (Nat × Int))
  | 0, _, _, _ => EncM.abort "fuel exhausted in log decompose loop"
  | fuel + 1, queuePositive, queueNegative, ret =>
    if 6 < queuePositive.length + queueNegative.length then do
      let selectingNegative := !decide (queueNegative.length < queuePositive.length)
      let target := if selectingNegative then queueNegative else queuePositive
      let another := if selectingNegative then queuePositive else queueNegative
      let nPack := min 6 target.length
      let packed := target.take nPack
      let targetRest := target.drop nPack
      let auxSum := packed.foldl (fun sm t => sm.addCoef t.1 t.2) LinearSum.empty
      let st ← EncM.getState
      let auxDom0 := getDomainLinearSum st.vars auxSum
      let remSum := (targetRest ++ another).foldl (fun sm t => sm.addCoef t.1 t.2)
        LinearSum.empty
      let remDom := getDomainLinearSum st.vars remSum
      let auxDom1 := (auxDom0.refineUpperBound (-(litConstant + remDom.lowerBound))).refineLowerBound
        (-(litConstant + remDom.upperBound))
      let auxDom := if selectingNegative then auxDom1.mulScalar (-1) else auxDom1
      let auxVar ← newIntVar (.domain auxDom)
      convertIntVarLogEncoding auxVar
      let auxSum2 := auxSum.addCoef auxVar (if selectingNegative then 1 else -1)
      let newTarget := targetRest ++ [(auxVar, if selectingNegative then (-1 : Int) else 1)]
      let qp := if selectingNegative then another else newTarget
      let qn := if selectingNegative then newTarget else another
      decomposeLogLoop config opForAuxLits litConstant fuel qp qn
        (ret ++ [LinearLit.mk auxSum2 opForAuxLits])
    else pure (ret, queuePositive, queueNegative)

/-- Encoder.rs `decompose_linear_lit_log`: cap the term count at 6 by
introducing log-encoded auxiliary variables, one sign queue at a time. -/
def decomposeLinearLitLog (config : Config) (lit : LinearLit) : EncM (List LinearLit) := do
  let opForAuxLits := if lit.op == .ge then CmpOp.ge else CmpOp.eq
  let queuePositive := lit.sum.term.filter (fun p => decide (0 < p.2))
  let queueNegative := lit.sum.term.filter (fun p => decide (p.2 < 0))
  let r ← decomposeLogLoop config opForAuxLits lit.sum.constant
    (queuePositive.length + queueNegative.length + 1) queuePositive queueNegative []
  let finalSum := (r.2.1 ++ r.2.2).foldl (fun sm t => sm.addCoef t.1 t.2)
    (LinearSum.ofConstant lit.sum.constant)
  pure (r.1 ++ [LinearLit.mk finalSum lit.op])

/-- Encoder.rs `is_ge_order_encoding_native_applicable` (pure over the
map; the source's unwrap cannot fire because every variable is encoded
before constraints are processed). -/
def isGeOrderEncodingNativeApplicable (config : Config) (map : EncodeMap)
    (sum : LinearSum) : Bool :=
  sum.term.all (fun p =>
      match map.intGet p.1 with
      | some enc => enc.orderEncoding.isSome
      | none => false)
  && decide (sum.len ≤ config.nativeLinearEncodingTerms)
  && decide (config.nativeLinearEncodingDomainProductThreshold ≤
      sum.term.foldl (fun acc p =>
        acc * (match (map.intGet p.1).bind (·.orderEncoding) with
          | some oe => oe.domain.length
          | none => 1)) 1)

/-- Encoder.rs `encode_linear_ge_order_encoding_native`: forward the
per-term literal and (normalized) domain tables with coefficients 1 to
the SAT engine's native primitive. -/
def encodeLinearGeOrderEncodingNative (sum : LinearSum) : EncM Unit := do
  let st ← EncM.getState
  let info ← EncM.ofOption "native: variable is not order encoded"
    (sum.term.mapM (fun p =>
      ((st.map.intGet p.1).bind (·.orderEncoding)).map
        (fun oe => LinearInfoForOrderEncoding.mk p.2 oe)))
  let lits := info.map (fun inf =>
    (List.range inf.domainSize).filterMap (fun j =>
      if 1 ≤ j then some (inf.atLeast j) else none))
  let domain := info.map (fun inf => (List.range inf.domainSize).map (fun j => inf.domainAt j))
  let coefs := info.map (fun _ => (1 : Int))
  addOrderEncodingLinear lits domain coefs sum.constant

/-- Bit positions set in a coefficient's absolute value, each paired with
the variable's bit literals (encoder.rs `encode_linear_log`, the
per-term `values_positive`/`values_negative` entries; a `u32` has at most
32 bits). -/
def coefBitEntries (coefAbs : Nat) (lits : List Lit) : List (Nat × List Lit) :=
  (List.range 32).filterMap (fun i => if coefAbs.testBit i then some (i, lits) else none)

/-- Initial bucket construction of encoder.rs `log_encoding_adder`:
distribute each `(offset, bit-literal vector)` entry into per-position
buckets, growing the tables as needed. -/
def adderInit (values : List (Nat × List Lit)) (constant : List Int) :
    List (List Lit) × List Int :=
  values.foldl (fun pvc ov =>
    let pv := pvc.1
    let pc := pvc.2
    let needed := ov.1 + ov.2.length
    let pv := if pv.length < needed then pv ++ List.replicate (needed - pv.length) [] else pv
    let pc := if pc.length < needed then pc ++ List.replicate (needed - pc.length) 0 else pc
    let pv := (List.range pv.length).map (fun i =>
      if ov.1 ≤ i ∧ i < ov.1 + ov.2.length then pv.getD i [] ++ [ov.2.getD (i - ov.1) ⟨0, false⟩]
      else pv.getD i [])
    (pv, pc))
  (List.replicate constant.length [], constant)

/-- Constant carry-normalization loop of encoder.rs `log_encoding_adder`:
propagate `pos_constant[i] / 2` upward and keep the parity bit.  The
carried value halves at each appended position, so fuel beyond the list
length plus the bit width of the constant cannot run out. -/
def adderNormalizeConstant : Nat → Nat → List (List Lit) × List Int →
    Option (List (List Lit) × List Int)
  | 0, _, _ => none
  | fuel + 1, i, pvc =>
    let pv := pvc.1
    let pc := pvc.2
    if i < pc.length then
      let ci := pc.getD i 0
      let pvc2 :=
        if 2 ≤ ci then
          (if i + 1 = pc.length then (pv ++ [[]], pc ++ [ci / 2])
           else (pv, pc.set (i + 1) (pc.getD (i + 1) 0 + ci / 2)))
        else (pv, pc)
      adderNormalizeConstant fuel (i + 1) (pvc2.1, pvc2.2.set i (ci % 2))
    else some (pv, pc)

/-- Main loop of encoder.rs `log_encoding_adder`: at each bit position,
relate the incoming bit literals, the carry (an order-encoded count),
the next carry (weight −2) and the result bit (weight −1) by two
`encode_linear_ge_mixed_from_info` calls (for `≥ 0` and `≤ 0`).  The
table grows by one position while the carry is nonempty at the end, and
the carried count halves each time, so the fuel passed by
`logEncodingAdder` cannot run out. -/
def adderLoop : Nat → Nat → List (List Lit) → List Int → List Lit → List Lit →
    ClauseSet → EncM (ClauseSet × List Lit)
  | 0, _, _, _, _, _, _ => EncM.abort "fuel exhausted in adder loop"
  | fuel + 1, i, pv, pc, carry, result, cs =>
    if i < pv.length then do
      let cnt : Int := pc.getD i 0 + ((pv.getD i []).length : Int) + (carry.length : Int)
      let bitInfos := (pv.getD i []).map (fun l =>
        LinearInfo.order ⟨1, ⟨[0, 1], [l]⟩⟩)
      let carryInfo := LinearInfo.order
        ⟨1, ⟨(List.range (carry.length + 1)).map (fun j => (j : Int)), carry⟩⟩
      let carryNext ← newVarsAsLits (cnt / 2).toNat
      let carryNextInfo := LinearInfo.order
        ⟨-2, ⟨(List.range ((cnt / 2).toNat + 1)).map (fun j => (j : Int)), carryNext⟩⟩
      let result ← (if result.length ≤ i then do
          let extra ← newVarsAsLits (i + 1 - result.length)
          pure (result ++ extra)
        else pure result)
      let retInfo := LinearInfo.order ⟨-1, ⟨[0, 1], [result.getD i ⟨0, false⟩]⟩⟩
      let infos := bitInfos ++ [carryInfo, carryNextInfo, retInfo]
      let cs := cs.append (encodeLinearGeMixedFromInfo infos (pc.getD i 0))
      let infosNeg := infos.map (fun inf =>
        match inf with
        | .order o => LinearInfo.order ⟨-o.coef, o.encoding⟩
        | .direct de => .direct de)
      let cs := cs.append (encodeLinearGeMixedFromInfo infosNeg (-(pc.getD i 0)))
      let pvc :=
        if !carryNext.isEmpty ∧ i + 1 = pv.length then (pv ++ [[]], pc ++ [0])
        else (pv, pc)
      adderLoop fuel (i + 1) pvc.1 pvc.2 carryNext result cs
    else pure (cs, result)

/-- Encoder.rs `log_encoding_adder`. -/
def logEncodingAdder (values : List (Nat × List Lit)) (constant : List Int)
    (result : List Lit) : EncM (ClauseSet × List Lit) := do
  let pvc := adderInit values constant
  match adderNormalizeConstant (pvc.2.length + 64) 0 pvc with
  | none => EncM.abort "fuel exhausted in adder constant normalization"
  | some pvc2 => adderLoop (pvc2.1.length + 64) 0 pvc2.1 pvc2.2 [] result ClauseSet.new

/-- Ne loop of encoder.rs `encode_linear_log`: per overlapping bit,
allocate `aux ↔ (p XOR n)` and collect the difference literals. -/
def logNeBuild (sumPositive sumNegative : List Lit) :
    List Nat → List Lit → ClauseSet → EncM (List Lit × ClauseSet)
  | [], clause, cs => pure (clause, cs)
  | i :: rest, clause, cs =>
    if sumPositive.length ≤ i then
      logNeBuild sumPositive sumNegative rest (clause ++ [sumNegative.getD i ⟨0, false⟩]) cs
    else if sumNegative.length ≤ i then
      logNeBuild sumPositive sumNegative rest (clause ++ [sumPositive.getD i ⟨0, false⟩]) cs
    else do
      let av ← newVar
      let aux := Lit.mk av false
      let p := sumPositive.getD i ⟨0, false⟩
      let n := sumNegative.getD i ⟨0, false⟩
      let cs := (((cs.push [aux.inv, p, n]).push [aux.inv, p.inv, n.inv]).push
        [aux, p, n.inv]).push [aux, p.inv, n]
      logNeBuild sumPositive sumNegative rest (clause ++ [aux]) cs

/-- Ge prefix chain of encoder.rs `encode_linear_log`: per overlapping
bit, introduce `sub_next ↔ (p ∧ ¬n) ∨ (p = n ∧ sub)`. -/
def logGeBuild (sumPositive sumNegative : List Lit) :
    List Nat → Option Lit → ClauseSet → EncM (Option Lit × ClauseSet)
  | [], sub, cs => pure (sub, cs)
  | i :: rest, sub, cs => do
    let sv ← newVar
    let subNext := Lit.mk sv false
    let p := sumPositive.getD i ⟨0, false⟩
    let n := sumNegative.getD i ⟨0, false⟩
    let cs :=
      match sub with
      | some sb =>
        (((((cs.push [subNext.inv, n.inv, sb]).push [subNext.inv, p, n.inv]).push
          [subNext.inv, p, sb]).push [p.inv, n, subNext]).push
          [p.inv, n.inv, sb.inv, subNext]).push [p, n, sb.inv, subNext]
      | none =>
        ((cs.push [subNext.inv, p, n.inv]).push [p.inv, subNext]).push [n, subNext]
    logGeBuild sumPositive sumNegative rest (some subNext) cs

/-- Encoder.rs `encode_linear_log`: push each variable's bit literals
per set bit of its coefficient into sign-separated bucket lists, run the
adder on each side, and relate the two bit vectors per the operator
(Eq / Ne / Ge only). -/
def encodeLinearLog (sum : LinearSum) (op : CmpOp) : EncM ClauseSet := do
  let st ← EncM.getState
  let entries ← EncM.ofOption "log: variable is not log encoded"
    (sum.term.mapM (fun p =>
      ((st.map.intGet p.1).bind (·.logEncoding)).map (fun le => (p.2, le.lits))))
  let valuesPositive := (entries.filter (fun e => decide (0 < e.1))).flatMap
    (fun e => coefBitEntries e.1.toNat e.2)
  let valuesNegative := (entries.filter (fun e => decide (e.1 < 0))).flatMap
    (fun e => coefBitEntries (-e.1).toNat e.2)
  let r1 ← logEncodingAdder valuesPositive [max sum.constant 0] []
  let r2 ← logEncodingAdder valuesNegative [max (-sum.constant) 0] []
  let sumPositive := r1.2
  let sumNegative := r2.2
  let clauseSet := (ClauseSet.new.append r1.1).append r2.1
  match op with
  | .eq =>
    pure (clauseSet.pushAll ((List.range (max sumPositive.length sumNegative.length)).flatMap
      (fun i =>
        if sumPositive.length ≤ i then [[(sumNegative.getD i ⟨0, false⟩).inv]]
        else if sumNegative.length ≤ i then [[(sumPositive.getD i ⟨0, false⟩).inv]]
        else [[sumPositive.getD i ⟨0, false⟩, (sumNegative.getD i ⟨0, false⟩).inv],
              [(sumPositive.getD i ⟨0, false⟩).inv, sumNegative.getD i ⟨0, false⟩]])))
  | .ne => do
    let r ← logNeBuild sumPositive sumNegative
      (List.range (max sumPositive.length sumNegative.length)) [] clauseSet
    pure (r.2.push r.1)
  | .ge => do
    let r ← logGeBuild sumPositive sumNegative
      (List.range (min sumPositive.length sumNegative.length)) none clauseSet
    let sub := r.1
    let cs := r.2
    if sumPositive.length ≤ sumNegative.length then
      let cs := match sub with
        | some sb => cs.push [sb]
        | none => cs
      pure (cs.pushAll ((List.range' sumPositive.length
        (sumNegative.length - sumPositive.length)).map
        (fun i => [(sumNegative.getD i ⟨0, false⟩).inv])))
    else
      pure (cs.push ((match sub with | some sb => [sb] | none => []) ++
        (List.range' sumNegative.length (sumPositive.length - sumNegative.length)).map
          (fun i => sumPositive.getD i ⟨0, false⟩)))
  | _ => EncM.abort "unsupported operator in log encoding"

/-- Partial-product row of encoder.rs `log_encoding_multiplier`: for each
bit `y` of the second factor allocate `m ↔ (x ∧ y)` with three clauses. -/
def mulRowGo (x : Lit) : List Lit → ClauseSet → List Lit → EncM (ClauseSet × List Lit)
  | [], cs, row => pure (cs, row)
  | y :: rest, cs, row => do
    let mv ← newVar
    let m := Lit.mk mv false
    mulRowGo x rest (((cs.push [m.inv, x]).push [m.inv, y]).push [x.inv, y.inv, m])
      (row ++ [m])

/-- All partial-product rows of encoder.rs `log_encoding_multiplier`. -/
def mulAllRows (value2 : List Lit) : List (Nat × Lit) → ClauseSet →
    List (Nat × List Lit) → EncM (ClauseSet × List (Nat × List Lit))
  | [], cs, acc => pure (cs, acc)
  | (i, x) :: rest, cs, acc => do
    let r ← mulRowGo x value2 cs []
    mulAllRows value2 rest r.1 (acc ++ [(i, r.2)])

/-- Encoder.rs `log_encoding_multiplier`: build the partial-product
matrix and feed it through the adder with the result bit vector. -/
def logEncodingMultiplier (value1 value2 result : List Lit) :
    EncM (ClauseSet × List Lit) := do
  let r ← mulAllRows value2 value1.enum ClauseSet.new []
  let r2 ← logEncodingAdder r.2 [] result
  pure (r.1.append r2.1, r2.2)

/-- Encoder.rs `encode_mul_log`: all three variables must be log-encoded;
surplus output bits beyond `m`'s width are forced to 0. -/
def encodeMulLog (x y m : Nat) : EncM ClauseSet := do
  let st ← EncM.getState
  let xRepr ← EncM.ofOption "mul: variable is not log encoded"
    (((st.map.intGet x).bind (·.logEncoding)).map (·.lits))
  let yRepr ← EncM.ofOption "mul: variable is not log encoded"
    (((st.map.intGet y).bind (·.logEncoding)).map (·.lits))
  let mRepr ← EncM.ofOption "mul: variable is not log encoded"
    (((st.map.intGet m).bind (·.logEncoding)).map (·.lits))
  let r ← logEncodingMultiplier xRepr yRepr mRepr
  pure (r.1.pushAll ((r.2.drop mRepr.length).map (fun l => [l.inv])))

/-- Decompose each rewritten `Ge` sum and concatenate the results
(encoder.rs `encode_constraint`, MixedGe non-Ne arm). -/
def decomposeAll (config : Config) : List LinearSum → EncM (List LinearLit)
  | [] => pure []
  | sum :: rest => do
    let d ← decomposeLinearLit config ⟨sum, .ge⟩
    let rest2 ← decomposeAll config rest
    pure (d ++ rest2)

/-- First loop of encoder.rs `encode_constraint`: drop range-unsat
literals (`continue`), rewrite and decompose the survivors per their
suggested encoder, producing one conjunction of simplified literals per
surviving disjunct (`Ne` under MixedGe contributes two disjuncts). -/
def simplifyLinearLits (config : Config) : List LinearLit → EncM (List (List LinearLit))
  | [] => pure []
  | lit :: rest => do
    let st ← EncM.getState
    let uns ← EncM.ofOption "is_unsatisfiable_linear: unencoded variable"
      (isUnsatisfiableLinear st.map lit)
    if uns then simplifyLinearLits config rest
    else do
      let kind ← EncM.ofOption "no encoder is applicable" (suggestEncoder st.map lit)
      match kind with
      | .mixedGe =>
        if lit.op == .ne then do
          let a ← decomposeLinearLit config ⟨(lit.sum.mulScalar (-1)).addConstant (-1), .ge⟩
          let b ← decomposeLinearLit config ⟨lit.sum.addConstant (-1), .ge⟩
          let rest2 ← simplifyLinearLits config rest
          pure (a :: b :: rest2)
        else do
          let simplifiedSums :=
            match lit.op with
            | .eq => [lit.sum, lit.sum.mulScalar (-1)]
            | .ne => []
            | .le => [lit.sum.mulScalar (-1)]
            | .lt => [(lit.sum.mulScalar (-1)).addConstant (-1)]
            | .ge => [lit.sum]
            | .gt => [lit.sum.addConstant (-1)]
          let decomposed ← decomposeAll config simplifiedSums
          let rest2 ← simplifyLinearLits config rest
          pure (decomposed :: rest2)
      | .directSimple => do
        let rest2 ← simplifyLinearLits config rest
        pure ([lit] :: rest2)
      | .directEqNe => do
        let d ← decomposeLinearLit config lit
        let rest2 ← simplifyLinearLits config rest
        pure (d :: rest2)
      | .log => do
        let normalized :=
          match lit.op with
          | .le => LinearLit.mk (lit.sum.mulScalar (-1)) .ge
          | .lt => LinearLit.mk ((lit.sum.mulScalar (-1)).addConstant (-1)) .ge
          | .gt => LinearLit.mk (lit.sum.addConstant (-1)) .ge
          | _ => lit
        let d ← decomposeLinearLitLog config normalized
        let rest2 ← simplifyLinearLits config rest
        pure (d :: rest2)

/-- Native-emission loop of encoder.rs `encode_constraint` (the single
linear disjunct, empty `bool_lits` case): each simplified literal is
emitted directly, using the engine-native order-linear primitive when
applicable. -/
def encodeNativeList (config : Config) : List LinearLit → EncM Unit
  | [] => pure ()
  | linearLit :: rest => do
    let st ← EncM.getState
    let kind ← EncM.ofOption "no encoder is applicable" (suggestEncoder st.map linearLit)
    match kind with
    | .mixedGe =>
      if isGeOrderEncodingNativeApplicable config st.map linearLit.sum then do
        encodeLinearGeOrderEncodingNative linearLit.sum
        encodeNativeList config rest
      else do
        let encoded ← EncM.ofOption "ge mixed: unencoded variable"
          (encodeLinearGeMixed st.map linearLit.sum)
        addClauseSet encoded
        encodeNativeList config rest
    | .directSimple => do
      let encoded ← EncM.ofOption "direct simple: bad literal"
        (encodeSimpleLinearDirectEncoding st.map linearLit)
      match encoded with
      | some cl => do
        addClause cl
        encodeNativeList config rest
      | none => encodeNativeList config rest
    | .directEqNe => do
      let encoded ← EncM.ofOption "direct eq/ne: unencoded variable"
        (if linearLit.op == .eq then encodeLinearEqDirect st.map linearLit.sum
         else encodeLinearNeDirect st.map linearLit.sum)
      addClauseSet encoded
      encodeNativeList config rest
    | .log => do
      let encoded ← encodeLinearLog linearLit.sum linearLit.op
      addClauseSet encoded
      encodeNativeList config rest

/-- Per-conjunction clause-set computation of encoder.rs
`encode_constraint` (second loop, inner part). -/
def encodeConjunction (config : Config) : List LinearLit → ClauseSet → EncM ClauseSet
  | [], acc => pure acc
  | linearLit :: rest, acc => do
    let st ← EncM.getState
    let kind ← EncM.ofOption "no encoder is applicable" (suggestEncoder st.map linearLit)
    match kind with
    | .mixedGe => do
      let encoded ← EncM.ofOption "ge mixed: unencoded variable"
        (encodeLinearGeMixed st.map linearLit.sum)
      encodeConjunction config rest (acc.append encoded)
    | .directSimple => do
      let encoded ← EncM.ofOption "direct simple: bad literal"
        (encodeSimpleLinearDirectEncoding st.map linearLit)
      match encoded with
      | some cl => encodeConjunction config rest (acc.push cl)
      | none => encodeConjunction config rest acc
    | .directEqNe => do
      let encoded ← EncM.ofOption "direct eq/ne: unencoded variable"
        (if linearLit.op == .eq then encodeLinearEqDirect st.map linearLit.sum
         else encodeLinearNeDirect st.map linearLit.sum)
      encodeConjunction config rest (acc.append encoded)
    | .log => do
      let encoded ← encodeLinearLog linearLit.sum linearLit.op
      encodeConjunction config rest (acc.append encoded)

/-- Second loop of encoder.rs `encode_constraint`: collect the multi-
clause conjunctions, folding one-clause conjunctions into `bool_lits`;
`none` is the source's early `return` on a zero-length conjunction
(the constraint always holds and nothing more is emitted). -/
def buildEncodedLits (config : Config) : List (List LinearLit) → List Lit →
    EncM (Option (List ClauseSet × List Lit))
  | [], boolLits => pure (some ([], boolLits))
  | lits :: rest, boolLits => do
    let conj ← encodeConjunction config lits ClauseSet.new
    if conj.len = 0 then pure none
    else if conj.len = 1 then buildEncodedLits config rest (boolLits ++ conj.get 0)
    else do
      let r ← buildEncodedLits config rest boolLits
      match r with
      | none => pure none
      | some acc => pure (some (conj :: acc.1, acc.2))

/-- Emit each clause extended by a suffix (the `buffer` idiom of
encoder.rs `encode_constraint`). -/
def addClausesWithSuffix (suffix : List Lit) : List (List Lit) → EncM Unit
  | [] => pure ()
  | c :: rest => do
    addClause (c ++ suffix)
    addClausesWithSuffix suffix rest

/-- Allocate one channeling variable per conjunction: the positive
polarity goes to the conjunction, the negative one extends `bool_lits`. -/
def allocChanneling : Nat → List Lit → List Lit → EncM (List Lit × List Lit)
  | 0, chan, bl => pure (chan, bl)
  | n + 1, chan, bl => do
    let v ← newVar
    allocChanneling n (chan ++ [Lit.mk v true]) (bl ++ [Lit.mk v false])

/-- Emit every clause of each conjunction extended by its channeling
literal. -/
def emitChanneled : List (ClauseSet × Lit) → EncM Unit
  | [] => pure ()
  | (cs, chLit) :: rest => do
    addClausesWithSuffix [chLit] cs.toList
    emitChanneled rest

/-- Encoder.rs `encode_constraint`. -/
def encodeConstraint (config : Config) (constr : Constraint) : EncM Unit := do
  let boolLits ← convertBoolLits constr.boolLit
  if constr.linearLit.length = 0 then addClause boolLits
  else do
    let simplifiedLinears ← simplifyLinearLits config constr.linearLit
    if simplifiedLinears.length = 0 then addClause boolLits
    else if simplifiedLinears.length = 1 ∧ boolLits.length = 0 then
      encodeNativeList config (simplifiedLinears.headD [])
    else do
      let r ← buildEncodedLits config simplifiedLinears boolLits
      match r with
      | none => pure ()
      | some el =>
        let encodedLits := el.1
        let boolLits2 := el.2
        if encodedLits.length = 0 then addClause boolLits2
        else if encodedLits.length = 1 then
          addClausesWithSuffix boolLits2 (encodedLits.headD ClauseSet.new).toList
        else
          if encodedLits.length = 2 ∧ boolLits2.length = 0 then do
            let v ← newVar
            emitChanneled (encodedLits.zip [Lit.mk v false, Lit.mk v true])
          else do
            let chbl ← allocChanneling encodedLits.length [] boolLits2
            addClause chbl.2
            emitChanneled (encodedLits.zip chbl.1)

/-- Modelled from the spec: `NormCSP::unencoded_int_vars` — the integer
variables at or above the `num_encoded_vars` watermark (the watermark
for incremental re-entry). -/
def unencodedIntVars (st : EncState) : List Nat :=
  List.range' st.numEncodedVars (st.vars.intVarDefs.length - st.numEncodedVars)

/-- Whether a variable's representation may be direct-encoded at all
(`Binary` only when `config.direct_encoding_for_binary_vars`). -/
def maybeDirectEncoding (config : Config) : IntVarRepresentation → Bool
  | .domain _ => true
  | .binary _ _ _ => config.directEncodingForBinaryVars

/-- Whether a linear literal mentions a variable. -/
def litMentions (l : LinearLit) (v : Nat) : Bool := l.sum.term.any (fun p => p.1 == v)

/-- A literal is *simple* when its operator is Eq or Ne and it has at
most 2 terms (encoder.rs `encode`, direct-set computation). -/
def isSimpleLit (l : LinearLit) : Bool :=
  (l.op == .eq || l.op == .ne) && decide (l.sum.len ≤ 2)

/-- Candidate direct-encoding set of encoder.rs `encode`: seed with the
yet-unencoded variables whose representation allows direct encoding,
then remove every variable mentioned by a non-simple literal of a
pending constraint.  (The `BTreeSet` is modelled as the filtered list.) -/
def directEncodingVarsOf (config : Config) (st : EncState) : List Nat :=
  if config.useDirectEncoding then
    let base := (unencodedIntVars st).filter (fun v =>
      maybeDirectEncoding config (st.vars.intVarDefs.getD v (.domain ⟨[]⟩)))
    st.constraints.foldl (fun acc constr =>
      constr.linearLit.foldl (fun acc2 l =>
        if isSimpleLit l then acc2 else acc2.filter (fun v => !litMentions l v)) acc) base
  else []

/-- Per-variable encoding choice and conversion loop of encoder.rs
`encode`: log when forced, direct when in the candidate set, order
otherwise. -/
def convertVars (config : Config) (dvars : List Nat) : List Nat → EncM Unit
  | [] => pure ()
  | v :: rest => do
    if config.forceUseLogEncoding then convertIntVarLogEncoding v
    else if dvars.contains v then convertIntVarDirectEncoding v
    else convertIntVarOrderEncoding v
    convertVars config dvars rest

/-- Drain the pending-constraint queue (`std::mem::replace`). -/
def takeConstraints : EncM (List Constraint) := fun s =>
  .ok (s.constraints, { s with constraints := [] })

/-- Drain the extra-constraint queue (`std::mem::replace`). -/
def takeExtraConstraints : EncM (List ExtraConstraint) := fun s =>
  .ok (s.extraConstraints, { s with extraConstraints := [] })

/-- Set `num_encoded_vars` to the current integer-variable count. -/
def setWatermark : EncM Unit := fun s =>
  .ok ((), { s with numEncodedVars := s.vars.intVarDefs.length })

/-- Encode each drained constraint in order. -/
def encodeConstraints (config : Config) : List Constraint → EncM Unit
  | [] => pure ()
  | c :: rest => do
    encodeConstraint config c
    encodeConstraints config rest

/-- Handle one extra constraint (encoder.rs `encode`, extra loop). -/
def handleExtra : ExtraConstraint → EncM Unit
  | .activeVerticesConnected vertices edges => do
    let lits ← convertBoolLits vertices
    addActiveVerticesConnected lits edges
  | .mul x y m => do
    let cs ← encodeMulLog x y m
    addClauseSet cs

/-- Handle each drained extra constraint in order. -/
def handleExtras : List ExtraConstraint → EncM Unit
  | [] => pure ()
  | e :: rest => do
    handleExtra e
    handleExtras rest

/-- Encoder.rs `encode`: choose and emit per-variable encodings, drain
and encode the pending constraints and extra constraints, and set the
`num_encoded_vars` watermark. -/
def encode (config : Config) : EncM Unit := do
  let st ← EncM.getState
  let dvars := directEncodingVarsOf config st
  convertVars config dvars (unencodedIntVars st)
  let constrs ← takeConstraints
  encodeConstraints config constrs
  let extras ← takeExtraConstraints
  handleExtras extras
  setWatermark

deriving instance DecidableEq for Except

/-- A configuration with every special encoding mode off. -/
def plainConfig : Config :=
  { useDirectEncoding := false
    directEncodingForBinaryVars := false
    forceUseLogEncoding := false
    domainProductThreshold := 1000
    nativeLinearEncodingTerms := 4
    nativeLinearEncodingDomainProductThreshold := 10000 }

/-- A configuration with direct encoding enabled. -/
def c2Config : Config := { plainConfig with useDirectEncoding := true }

/-- A fresh state with one integer variable of domain `{1, 2, 3}` and no
pending constraints. -/
def c2State : EncState :=
  { vars := ⟨[IntVarRepresentation.domain ⟨[1, 2, 3]⟩]⟩
    constraints := []
    extraConstraints := []
    numEncodedVars := 0
    sat := SATState.empty
    map := EncodeMap.new }

/-- A state whose single integer variable is already order-encoded with
domain `{1, 2}`. -/
def c6State : EncState :=
  { vars := ⟨[IntVarRepresentation.domain ⟨[1, 2]⟩]⟩
    constraints := []
    extraConstraints := []
    numEncodedVars := 1
    sat := ⟨1, [], [], []⟩
    map := ⟨[], [some (Encoding.ofOrder ⟨[1, 2], [⟨0, false⟩]⟩)]⟩ }

/-- The literal `x0 - 5 ≥ 0`: over domain `{1, 2}` its sum ranges in
`[-4, -3]`, so it is range-level unsatisfiable. -/
def c6Lit : LinearLit := ⟨⟨[(0, 1)], -5⟩, .ge⟩

/-- The interval of `x0 - 5` over the domain `{1, 2}`. -/
def c6Range : Range := ⟨-4, -3⟩

/-- A fresh state with one integer variable of domain `{0, 1}` and the
pending constraint `x0 - 1 ≥ 0`. -/
def c8State : EncState :=
  { vars := ⟨[IntVarRepresentation.domain ⟨[0, 1]⟩]⟩
    constraints := [⟨[], [⟨⟨[(0, 1)], -1⟩, .ge⟩]⟩]
    extraConstraints := []
    numEncodedVars := 0
    sat := SATState.empty
    map := EncodeMap.new }

/-- A fresh state with one integer variable of domain `{1, 2}` and the
pending constraint `x0 - 2 ≥ 0`. -/
def c9State : EncState :=
  { vars := ⟨[IntVarRepresentation.domain ⟨[1, 2]⟩]⟩
    constraints := [⟨[], [⟨⟨[(0, 1)], -2⟩, .ge⟩]⟩]
    extraConstraints := []
    numEncodedVars := 0
    sat := SATState.empty
    map := EncodeMap.new }

/-- The state `encode` produces from `c2State` under `c2Config`. -/
def c2Final : EncState :=
  { vars := ⟨[IntVarRepresentation.domain ⟨[1, 2, 3]⟩]⟩
    constraints := []
    extraConstraints := []
    numEncodedVars := 1
    sat := ⟨3, [[⟨0, false⟩, ⟨1, false⟩, ⟨2, false⟩],
                [⟨1, true⟩, ⟨0, true⟩],
                [⟨2, true⟩, ⟨0, true⟩],
                [⟨2, true⟩, ⟨1, true⟩]], [], []⟩
    map := ⟨[], [some (Encoding.ofDirect ⟨[1, 2, 3], [⟨0, false⟩, ⟨1, false⟩, ⟨2, false⟩]⟩)]⟩ }

/-- The state `encode` produces from `c8State` under `plainConfig`. -/
def c8Final : EncState :=
  { vars := ⟨[IntVarRepresentation.domain ⟨[0, 1]⟩]⟩
    constraints := []
    extraConstraints := []
    numEncodedVars := 1
    sat := ⟨1, [[⟨0, false⟩]], [], []⟩
    map := ⟨[], [some (Encoding.ofOrder ⟨[0, 1], [⟨0, false⟩]⟩)]⟩ }

/-- The state `encode` produces from `c9State` under `plainConfig`. -/
def c9Final : EncState :=
  { vars := ⟨[IntVarRepresentation.domain ⟨[1, 2]⟩]⟩
    constraints := []
    extraConstraints := []
    numEncodedVars := 1
    sat := ⟨1, [[⟨0, false⟩]], [], []⟩
    map := ⟨[], [some (Encoding.ofOrder ⟨[1, 2], [⟨0, false⟩]⟩)]⟩ }

/-- List lookup with a default agrees with `get?` inside the length. -/
theorem get?_eq_some_getD {α} (l : List α) (d : α) (i : Nat) (h : i < l.length) :
    l.get? i = some (l.getD i d) := by
  rw [List.getD_eq_getElem?_getD, List.get?_eq_getElem?]
  cases h' : l[i]? with
  | none => simp [List.getElem?_eq_none_iff] at h'; omega
  | some b => simp

/-- A defaulted lookup inside the length is a member of the list. -/
theorem getD_mem {α} (l : List α) (d : α) (k : Nat) (h : k < l.length) :
    l.getD k d ∈ l := by
  have := List.getD_eq_getElem l d h
  rw [this]
  exact List.getElem_mem _

/-- The binary search stays within its initial bracket and never reads a
position out of range when `right` is bounded by the length. -/
theorem orderSearch_bounds_aux (fuel : Nat) : ∀ (truth : List Bool) (left right : Nat),
    right - left < fuel → right ≤ truth.length → left ≤ right →
    ∃ k, orderSearch truth fuel left right = some k ∧ left ≤ k ∧ k ≤ right := by
  induction fuel with
  | zero => intro truth left right h1 _ _; omega
  | succ n ih =>
    intro truth left right h1 h2 h3
    by_cases h : left < right
    · have hmid1 : left + 1 ≤ (left + right + 1) / 2 := by omega
      have hmid2 : (left + right + 1) / 2 ≤ right := by omega
      have hidx : (left + right + 1) / 2 - 1 < truth.length := by omega
      simp only [orderSearch, h, if_pos]
      rw [get?_eq_some_getD truth false _ hidx]
      cases hb : truth.getD ((left + right + 1) / 2 - 1) false
      · simp only [if_neg (by simp : ¬ (false = true))]
        obtain ⟨k, hk, hk1, hk2⟩ := ih truth left ((left + right + 1) / 2 - 1)
          (by omega) (by omega) (by omega)
        exact ⟨k, hk, hk1, by omega⟩
      · simp only [if_pos rfl]
        obtain ⟨k, hk, hk1, hk2⟩ := ih truth ((left + right + 1) / 2) right
          (by omega) (by omega) (by omega)
        exact ⟨k, hk, by omega, hk2⟩
    · have he : left = right := by omega
      subst he
      refine ⟨left, ?_, le_refl _, le_refl _⟩
      simp [orderSearch, h]

/-- On monotone truth values the binary search returns the boundary
between the true prefix and the false suffix. -/
theorem orderSearch_mono_aux (fuel : Nat) : ∀ (truth : List Bool) (left right : Nat),
    right - left < fuel → right ≤ truth.length → left ≤ right →
    (∀ i, i < left → truth.getD i false = true) →
    (∀ i, right ≤ i → i < truth.length → truth.getD i false = false) →
    MonotoneTruth truth →
    ∃ k, orderSearch truth fuel left right = some k ∧ left ≤ k ∧ k ≤ right ∧
      (∀ i, i < k → truth.getD i false = true) ∧
      (∀ i, k ≤ i → i < truth.length → truth.getD i false = false) := by
  induction fuel with
  | zero => intro truth left right h1 _ _ _ _ _; omega
  | succ n ih =>
    intro truth left right h1 h2 h3 hpre hsuf hmono
    by_cases h : left < right
    · have hmid1 : left + 1 ≤ (left + right + 1) / 2 := by omega
      have hmid2 : (left + right + 1) / 2 ≤ right := by omega
      have hidx : (left + right + 1) / 2 - 1 < truth.length := by omega
      simp only [orderSearch, h, if_pos]
      rw [get?_eq_some_getD truth false _ hidx]
      cases hb : truth.getD ((left + right + 1) / 2 - 1) false
      · simp only [if_neg (by simp : ¬ (false = true))]
        have hsuf' : ∀ i, (left + right + 1) / 2 - 1 ≤ i → i < truth.length →
            truth.getD i false = false := by
          intro i hi hilen
          cases hbi : truth.getD i false
          · rfl
          · have := hmono ((left + right + 1) / 2 - 1) i hi hbi
            rw [hb] at this
            exact absurd this (by simp)
        obtain ⟨k, hk, hk1, hk2, hk3, hk4⟩ := ih truth left ((left + right + 1) / 2 - 1)
          (by omega) (by omega) (by omega) hpre hsuf' hmono
        exact ⟨k, hk, hk1, by omega, hk3, hk4⟩
      · simp only [if_pos rfl]
        have hpre' : ∀ i, i < (left + right + 1) / 2 → truth.getD i false = true := by
          intro i hi
          exact hmono i ((left + right + 1) / 2 - 1) (by omega) hb
        obtain ⟨k, hk, hk1, hk2, hk3, hk4⟩ := ih truth ((left + right + 1) / 2) right
          (by omega) (by omega) (by omega) hpre' hsuf hmono
        exact ⟨k, hk, by omega, hk2, hk3, hk4⟩
    · have he : left = right := by omega
      subst he
      refine ⟨left, ?_, le_refl _, le_refl _, hpre, hsuf⟩
      simp [orderSearch, h]

/-- C3 fails as stated: with literal truth values `[false, true]` the
largest true index is 1, so the claim predicts `domain[1] = 5`, but the
binary search of `get_int_value_checked` returns `domain[0] = 3`. -/
theorem C3_counterexample : ¬ c3ClaimAt c3CounterMap c3CounterModel 0 := by
  intro h
  have h' : (Except.ok (some (3 : Int)) : Except String (Option Int)) = .ok (some 5) := h
  simp at h' 

/-- C3 (amended): for an order-encoded variable whose domain has one more
element than its literal vector, and for a model whose literal truth
values are monotone non-increasing (as the emitted clauses
`lits[i] → lits[i-1]` enforce), `get_int_value` returns `domain[k]` where
`k` is the size of the true prefix — that is, `domain[j+1]` for `j` the
largest index with `lits[j]` true, and `domain[0]` when none is true. -/
theorem C3_order_decode_monotone (em : EncodeMap) (model : SATModel) (v : Nat)
    (enc : Encoding) (oe : OrderEncoding)
    (h1 : em.intGet v = some enc) (h2 : enc.orderEncoding = some oe)
    (hlen : oe.domain.length = oe.lits.length + 1)
    (hmono : MonotoneTruth (oe.lits.map model.assignmentLit)) :
    ∃ k, k ≤ oe.lits.length ∧
      em.getIntValueChecked model v = .ok (some (oe.domain.getD k 0)) ∧
      (∀ i, i < k → (oe.lits.map model.assignmentLit).getD i false = true) ∧
      (∀ i, k ≤ i → i < oe.lits.length →
        (oe.lits.map model.assignmentLit).getD i false = false) := by
  obtain ⟨k, hk, hk1, hk2, hk3, hk4⟩ := orderSearch_mono_aux (oe.lits.length + 1)
    (oe.lits.map model.assignmentLit) 0 oe.lits.length (by omega) (by simp) (by omega)
    (by omega) (by intro i h1 h2; simp at h2; omega) hmono
  have hkd : k < oe.domain.length := by omega
  refine ⟨k, hk2, ?_, hk3, ?_⟩
  · simp only [EncodeMap.getIntValueChecked, h1, h2, hk]
    rw [get?_eq_some_getD oe.domain 0 k hkd]
  · intro i hi hilen
    exact hk4 i hi (by simp; omega)

/-- Witness for the amended C3 at a concrete monotone model: the true
prefix has size 1, so decoding yields `domain[1] = 5`. -/
theorem C3_order_decode_monotone_witness :
    ∃ k, k ≤ 2 ∧
      c3WitnessMap.getIntValueChecked c3WitnessModel 0 =
        .ok (some (([3, 5, 7] : List Int).getD k 0)) ∧
      (∀ i, i < k →
        (([⟨0, false⟩, ⟨1, false⟩] : List Lit).map c3WitnessModel.assignmentLit).getD i false
          = true) ∧
      (∀ i, k ≤ i → i < 2 →
        (([⟨0, false⟩, ⟨1, false⟩] : List Lit).map c3WitnessModel.assignmentLit).getD i false
          = false) := by
  refine C3_order_decode_monotone c3WitnessMap c3WitnessModel 0 _ _ rfl rfl rfl ?_
  intro i j hij hj
  match j, hj with
  | 0, hj => have hi0 : i = 0 := by omega
             subst hi0
             exact hj
  | 1, hj => exact absurd hj (by decide)
  | (n + 2), hj => exact absurd hj (by simp [List.getD])

/-- C10: for every order-encoded integer variable stored in the map whose
domain vector has exactly one more element than its literal vector, and
for every SAT model (monotone or not), the decoding binary search in
`get_int_value_checked` terminates (it is a total function here), raises
no out-of-range access, and returns some value belonging to the domain. -/
theorem C10_order_decode_safe (em : EncodeMap) (model : SATModel) (v : Nat)
    (enc : Encoding) (oe : OrderEncoding)
    (h1 : em.intGet v = some enc) (h2 : enc.orderEncoding = some oe)
    (hlen : oe.domain.length = oe.lits.length + 1) :
    ∃ d, em.getIntValueChecked model v = .ok (some d) ∧ d ∈ oe.domain := by
  obtain ⟨k, hk, hk1, hk2⟩ := orderSearch_bounds_aux (oe.lits.length + 1)
    (oe.lits.map model.assignmentLit) 0 oe.lits.length (by omega) (by simp) (by omega)
  have hkd : k < oe.domain.length := by omega
  refine ⟨oe.domain.getD k 0, ?_, getD_mem oe.domain 0 k hkd⟩
  simp only [EncodeMap.getIntValueChecked, h1, h2, hk]
  rw [get?_eq_some_getD oe.domain 0 k hkd]

/-- Witness for C10 at a concrete non-monotone model. -/
theorem C10_order_decode_safe_witness :
    ∃ d, c10WitnessMap.getIntValueChecked c10WitnessModel 0 = .ok (some d) ∧
      d ∈ ([3, 5, 7] : List Int) :=
  C10_order_decode_safe c10WitnessMap c10WitnessModel 0 _ _ rfl rfl rfl

/-- Once an indicator has been recorded, any further true indicator
aborts the scan and otherwise the recorded value is returned. -/
theorem directScan_some (model : SATModel) (domain : List Int) (lits : List Lit)
    (idxs : List Nat) (d : Int) :
    directScan model domain lits idxs (some d) =
      if idxs.any (fun i => model.assignmentLit (lits.getD i ⟨0, false⟩)) then
        .error "multiple indicator bits are set for a direct-encoded variable"
      else .ok d := by
  induction idxs with
  | nil => simp [directScan]
  | cons i rest ih =>
    cases hi : model.assignmentLit (lits.getD i ⟨0, false⟩) with
    | true => simp only [directScan, hi, List.any_cons, Bool.true_or, ite_true]
    | false =>
      simp only [directScan, hi, List.any_cons, Bool.false_or, Bool.false_eq_true, ite_false]
      exact ih

/-- Characterization of the direct-encoding scan started with no value
recorded: the outcome depends only on the list of true indicators. -/
theorem directScan_none (model : SATModel) (domain : List Int) (lits : List Lit) :
    ∀ idxs : List Nat, (∀ i ∈ idxs, i < domain.length) →
    directScan model domain lits idxs none =
      match idxs.filter (fun i => model.assignmentLit (lits.getD i ⟨0, false⟩)) with
      | [] => .error "no indicator bits are set for a direct-encoded variable"
      | [i] => .ok (domain.getD i 0)
      | _ => .error "multiple indicator bits are set for a direct-encoded variable" := by
  intro idxs
  induction idxs with
  | nil => intro _; simp [directScan]
  | cons i rest ih =>
    intro hbound
    cases hi : model.assignmentLit (lits.getD i ⟨0, false⟩) with
    | true =>
      have hd : domain.get? i = some (domain.getD i 0) :=
        get?_eq_some_getD domain 0 i (hbound i (by simp))
      simp only [directScan, hi, ite_true, hd]
      rw [directScan_some]
      rw [List.filter_cons_of_pos (by simpa using hi)]
      cases hr : rest.any (fun j => model.assignmentLit (lits.getD j ⟨0, false⟩)) with
      | true =>
        simp only [ite_true]
        obtain ⟨a, ha, hfa⟩ := List.any_eq_true.mp hr
        cases hfr : rest.filter (fun j => model.assignmentLit (lits.getD j ⟨0, false⟩)) with
        | nil =>
          have h2 := List.filter_eq_nil_iff.mp hfr a ha
          rw [List.getD_eq_getElem?_getD] at hfa
          simp [hfa] at h2
        | cons a b => rfl
      | false =>
        have hnil : rest.filter (fun j => model.assignmentLit (lits.getD j ⟨0, false⟩)) = [] := by
          rw [List.filter_eq_nil_iff]
          intro a ha
          have := List.any_eq_false.mp hr a ha
          simpa using this
        rw [hnil]
        simp
    | false =>
      have := ih (fun j hj => hbound j (by simp [hj]))
      simp only [directScan, hi, Bool.false_eq_true, ite_false, this]
      rw [List.filter_cons_of_neg (by simpa using hi)]

/-- C7: decoding a direct-encoded integer variable enforces the
exactly-one postcondition fatally: the scan aborts when zero or several
indicator literals are true in the model and otherwise yields
`domain[i]` for the unique true `lits[i]`; a variable with no encoding
decodes to `none` without aborting. -/
theorem C7_direct_decode_exactly_one (em : EncodeMap) (model : SATModel) (v : Nat) :
    (em.intGet v = none → em.getIntValueChecked model v = .ok none) ∧
    (∀ enc de, em.intGet v = some enc → enc.orderEncoding = none →
      enc.directEncoding = some de → de.domain.length = de.lits.length →
      (∀ i, (List.range de.lits.length).filter
          (fun j => model.assignmentLit (de.lits.getD j ⟨0, false⟩)) = [i] →
        em.getIntValueChecked model v = .ok (some (de.domain.getD i 0))) ∧
      (((List.range de.lits.length).filter
          (fun j => model.assignmentLit (de.lits.getD j ⟨0, false⟩))).length ≠ 1 →
        ∃ e, em.getIntValueChecked model v = .error e)) := by
  constructor
  · intro h
    simp [EncodeMap.getIntValueChecked, h]
  · intro enc de h1 h2 h3 hlen
    have hscan := directScan_none model de.domain de.lits (List.range de.lits.length)
      (by intro i hi; rw [hlen]; simpa using hi)
    constructor
    · intro i hi
      rw [hi] at hscan
      simp only [EncodeMap.getIntValueChecked, h1, h2, h3, hscan]
    · intro hne
      cases hfr : (List.range de.lits.length).filter
          (fun j => model.assignmentLit (de.lits.getD j ⟨0, false⟩)) with
      | nil =>
        rw [hfr] at hscan
        refine ⟨"no indicator bits are set for a direct-encoded variable", ?_⟩
        simp only [EncodeMap.getIntValueChecked, h1, h2, h3]
        rw [hscan]
      | cons a b =>
        cases b with
        | nil => exact absurd (by rw [hfr]; simp) hne
        | cons a' b' =>
          rw [hfr] at hscan
          refine ⟨"multiple indicator bits are set for a direct-encoded variable", ?_⟩
          simp only [EncodeMap.getIntValueChecked, h1, h2, h3]
          rw [hscan]

/-- Witness for C7: the unique true indicator is index 1, so the decoded
value is `domain[1] = 6`; an unencoded variable decodes to `none`. -/
theorem C7_direct_decode_exactly_one_witness :
    c7WitnessMap.getIntValueChecked c7WitnessModel 0 = .ok (some 6) ∧
    c7WitnessMap.getIntValueChecked c7WitnessModel 3 = .ok none := by
  constructor
  · exact (((C7_direct_decode_exactly_one c7WitnessMap c7WitnessModel 0).2 _ _
      rfl rfl rfl rfl).1 1 (by decide))
  · exact (C7_direct_decode_exactly_one c7WitnessMap c7WitnessModel 3).1 rfl

/-- C4: the pruning described by the claim never happens — the source
initializes `cannot_prune` to `true` and both conditionals also assign
`true`, so the clause is pushed in every bound-violating branch.  At the
failing input `x0 + x1 + x2 - 9 = 0` the branch `x0 = 1, x1 = 10`
reaches the last term with running lower bound 2 > 0 and recorded
minimal relaxation `min_relax_for_lb = 1`; since `2 - 1 > 0` the claim
says no clause is emitted there, yet the code emits
`¬(x0 = 1) ∨ ¬(x1 = 10)` (second conjunct: the recursion at exactly that
state pushes the clause). -/
theorem C4_pruning_dead_code :
    ((encodeLinearEqDirect c4BugMap c4BugSum).map
      (fun cs => cs.toList.contains [Lit.mk 1 true, Lit.mk 5 true])) = some true ∧
    eqDirectSub [⟨1, ⟨[0, 9, 10], [⟨6, false⟩, ⟨7, false⟩, ⟨8, false⟩]⟩⟩]
      [Lit.mk 1 true, Lit.mk 5 true] 2 12 (some 1) (some 0) =
      [[Lit.mk 1 true, Lit.mk 5 true]] := by
  constructor
  · rfl
  · rfl

/-- The oks/ngs collection loop of the direct-simple encoder equals a
zip-and-filter description. -/
theorem collectSimple_eq (op : CmpOp) (coef k : Int) :
    ∀ (ds : List Int) (ls : List Lit), ds.length ≤ ls.length →
    collectSimple op coef k ds ls =
      some (((ds.zip ls).filter (fun p => op.compare (p.1 * coef + k) 0)).map Prod.snd,
            ((ds.zip ls).filter (fun p => !op.compare (p.1 * coef + k) 0)).map
              (fun p => p.2.inv)) := by
  intro ds
  induction ds with
  | nil => intro ls _; simp [collectSimple]
  | cons d ds ih =>
    intro ls hlen
    cases ls with
    | nil => simp at hlen
    | cons l ls =>
      have h := ih ls (by simpa using hlen)
      cases hc : op.compare (d * coef + k) 0
      · simp [collectSimple, h, hc]
      · simp [collectSimple, h, hc]

/-- Filtering a zip by a predicate on the first component counts like
filtering the first list. -/
theorem zip_filter_fst_length (P : Int → Bool) :
    ∀ (ds : List Int) (ls : List Lit), ds.length ≤ ls.length →
    ((ds.zip ls).filter (fun p => P p.1)).length = (ds.filter P).length := by
  intro ds
  induction ds with
  | nil => intro ls _; simp
  | cons d ds ih =>
    intro ls hlen
    cases ls with
    | nil => simp at hlen
    | cons l ls =>
      have h := ih ls (by simpa using hlen)
      cases hc : P d
      · simp [hc, h]
      · simp [hc, h]

/-- A filter and its complement split the length of the list. -/
theorem filter_length_split (P : Int → Bool) (ds : List Int) :
    (ds.filter P).length + (ds.filter (fun d => !P d)).length = ds.length := by
  induction ds with
  | nil => simp
  | cons d ds ih => cases hc : P d <;> simp [hc] <;> omega

/-- C5: for a one-term literal `c·x + k op 0` over a direct-encoded `x`,
`encode_simple_linear_direct_encoding` returns `None` exactly when every
domain value passes `c·d + k op 0`; otherwise it returns one clause —
the negations `ngs` of the failing values' literals when exactly one
value fails, and the passing values' literals `oks` otherwise. -/
theorem C5_simple_direct_encoding (map : EncodeMap) (lit : LinearLit) (v : Nat) (coef : Int)
    (enc : Encoding) (de : DirectEncoding)
    (hterm : lit.sum.term = [(v, coef)])
    (henc : map.intGet v = some enc) (hde : enc.directEncoding = some de)
    (hlen : de.domain.length = de.lits.length) :
    ∃ r, encodeSimpleLinearDirectEncoding map lit = some r ∧
      (r = none ↔ ∀ d ∈ de.domain, lit.op.compare (d * coef + lit.sum.constant) 0 = true) ∧
      (∀ cl, r = some cl →
        ((de.domain.filter
            (fun d => !lit.op.compare (d * coef + lit.sum.constant) 0)).length = 1 →
          cl = ((de.domain.zip de.lits).filter
            (fun p => !lit.op.compare (p.1 * coef + lit.sum.constant) 0)).map
              (fun p => p.2.inv)) ∧
        ((de.domain.filter
            (fun d => !lit.op.compare (d * coef + lit.sum.constant) 0)).length ≠ 1 →
          cl = ((de.domain.zip de.lits).filter
            (fun p => lit.op.compare (p.1 * coef + lit.sum.constant) 0)).map Prod.snd)) := by
  have hcol := collectSimple_eq lit.op coef lit.sum.constant de.domain de.lits (le_of_eq hlen)
  set oks : List Lit := ((de.domain.zip de.lits).filter
      (fun p => lit.op.compare (p.1 * coef + lit.sum.constant) 0)).map Prod.snd with hoks
  set ngs : List Lit := ((de.domain.zip de.lits).filter
      (fun p => !lit.op.compare (p.1 * coef + lit.sum.constant) 0)).map
        (fun p => p.2.inv) with hngs
  have hoksl : oks.length =
      (de.domain.filter (fun d => lit.op.compare (d * coef + lit.sum.constant) 0)).length := by
    rw [hoks, List.length_map]
    exact zip_filter_fst_length (fun d => lit.op.compare (d * coef + lit.sum.constant) 0)
      de.domain de.lits (le_of_eq hlen)
  have hngsl : ngs.length =
      (de.domain.filter (fun d => !lit.op.compare (d * coef + lit.sum.constant) 0)).length := by
    rw [hngs, List.length_map]
    exact zip_filter_fst_length (fun d => !lit.op.compare (d * coef + lit.sum.constant) 0)
      de.domain de.lits (le_of_eq hlen)
  have hsplit :
      (de.domain.filter (fun d => lit.op.compare (d * coef + lit.sum.constant) 0)).length +
      (de.domain.filter (fun d => !lit.op.compare (d * coef + lit.sum.constant) 0)).length =
      de.domain.length := filter_length_split _ de.domain
  refine ⟨if oks.length == de.domain.length then none
          else if ngs.length == 1 then some ngs else some oks, ?_, ?_, ?_⟩
  · simp only [encodeSimpleLinearDirectEncoding, hterm, henc, hde, hcol]
  · constructor
    · intro hr
      by_cases hc : oks.length = de.domain.length
      · intro d hd
        have h0 : (de.domain.filter
            (fun d => !lit.op.compare (d * coef + lit.sum.constant) 0)).length = 0 := by omega
        have hnil : de.domain.filter
            (fun d => !lit.op.compare (d * coef + lit.sum.constant) 0) = [] :=
          List.length_eq_zero.mp h0
        have := List.filter_eq_nil_iff.mp hnil d hd
        simpa using this
      · rw [if_neg (by simpa using hc)] at hr
        by_cases hn : ngs.length = 1
        · rw [if_pos (by simpa using hn)] at hr
          exact absurd hr (by simp)
        · rw [if_neg (by simpa using hn)] at hr
          exact absurd hr (by simp)
    · intro hall
      have hnil : de.domain.filter
          (fun d => !lit.op.compare (d * coef + lit.sum.constant) 0) = [] := by
        rw [List.filter_eq_nil_iff]
        intro d hd
        simp [hall d hd]
      have h0 : (de.domain.filter
          (fun d => !lit.op.compare (d * coef + lit.sum.constant) 0)).length = 0 := by
        rw [hnil]; rfl
      have hc : oks.length = de.domain.length := by omega
      rw [if_pos (by simpa using hc)]
  · intro cl hcl
    constructor
    · intro hcount
      have hn1 : ngs.length = 1 := by omega
      have hne : oks.length ≠ de.domain.length := by omega
      rw [if_neg (by simpa using hne), if_pos (by simpa using hn1)] at hcl
      injection hcl with h
      exact h.symm
    · intro hcount
      by_cases h0 : (de.domain.filter
          (fun d => !lit.op.compare (d * coef + lit.sum.constant) 0)).length = 0
      · have hc : oks.length = de.domain.length := by omega
        rw [if_pos (by simpa using hc)] at hcl
        exact absurd hcl (by simp)
      · have hne : oks.length ≠ de.domain.length := by omega
        have hn1 : ngs.length ≠ 1 := by omega
        rw [if_neg (by simpa using hne), if_neg (by simpa using hn1)] at hcl
        injection hcl with h
        exact h.symm

/-- Witness for C5: exactly one domain value fails `d + 1 ≥ 0`, so the
emitted clause is the singleton `ngs` clause `¬(x = -2)`. -/
theorem C5_simple_direct_encoding_witness :
    ∃ r, encodeSimpleLinearDirectEncoding c5WitnessMap c5WitnessLit = some r ∧
      r = some [Lit.mk 0 true] := by
  obtain ⟨r, hr, hiff, hcl⟩ := C5_simple_direct_encoding c5WitnessMap c5WitnessLit 0 1 _ _
    rfl rfl rfl rfl
  refine ⟨r, hr, ?_⟩
  cases hr2 : r with
  | none =>
    have := hiff.mp hr2
    have hbad := this (-2) (by decide)
    exact absurd hbad (by decide)
  | some cl =>
    have h1 := (hcl cl hr2).1 (by decide)
    rw [h1]
    rfl

/-- Lookup after a pad-and-set write: the written index reads back the
value, other indices are unchanged. -/
theorem getIdx_setIdx {α} (x : α) : ∀ (i : Nat) (l : List (Option α)) (j : Nat),
    getIdx (setIdx l i x) j = if i = j then some x else getIdx l j := by
  intro i
  induction i with
  | zero =>
    intro l j
    cases l <;> cases j <;>
      simp [setIdx, getIdx, List.getD_cons_zero, List.getD_cons_succ, List.getD_nil]
  | succ n ih =>
    intro l j
    cases l with
    | nil =>
      cases j with
      | zero => simp [setIdx, getIdx, List.getD_cons_zero]
      | succ m =>
        simp only [setIdx, getIdx, List.getD_cons_succ]
        have h2 := ih [] m
        simp only [getIdx] at h2
        rw [h2]
        by_cases h : n = m
        · subst h; simp
        · rw [if_neg h, if_neg (by omega)]
          simp [List.getD_nil]
    | cons y rest =>
      cases j with
      | zero => simp [setIdx, getIdx, List.getD_cons_zero]
      | succ m =>
        simp only [setIdx, getIdx, List.getD_cons_succ]
        have h2 := ih rest m
        simp only [getIdx] at h2
        rw [h2]
        by_cases h : n = m
        · subst h; simp
        · rw [if_neg h, if_neg (by omega)]

/-- State evolution contract shared by every operation the constraint
encoders perform: integer encodings already recorded stay recorded
unchanged, and the two pending queues are untouched. -/
def MapMono (s s2 : EncState) : Prop :=
  (∀ v e, s.map.intGet v = some e → s2.map.intGet v = some e) ∧
  s2.constraints = s.constraints ∧ s2.extraConstraints = s.extraConstraints

theorem MapMono.refl (s : EncState) : MapMono s s :=
  ⟨fun _ _ h => h, Eq.refl _, Eq.refl _⟩

theorem MapMono.trans {s1 s2 s3 : EncState} (h1 : MapMono s1 s2) (h2 : MapMono s2 s3) :
    MapMono s1 s3 :=
  ⟨fun v e h => h2.1 v e (h1.1 v e h), h2.2.1.trans h1.2.1, h2.2.2.trans h1.2.2⟩

/-- An `EncM` computation satisfies the invariant when every successful
run relates its initial and final states by `MapMono`. -/
def EncInv (x : EncM α) : Prop := ∀ s a s2, x s = .ok (a, s2) → MapMono s s2

theorem EncInv.bind {x : EncM α} {f : α → EncM β} (hx : EncInv x)
    (hf : ∀ a, EncInv (f a)) : EncInv (x >>= f) := by
  intro s b s2 h
  have hb : (x >>= f) s = EncM.bindM x f s := rfl
  rw [hb] at h
  unfold EncM.bindM at h
  cases hxs : x s with
  | error e => rw [hxs] at h; cases h
  | ok p =>
    rw [hxs] at h
    exact (hx s p.1 p.2 hxs).trans (hf p.1 p.2 b s2 h)

theorem encInv_pure (a : α) : EncInv (pure a : EncM α) := by
  intro s b s2 h
  cases h
  exact MapMono.refl s

theorem encInv_abort (msg : String) : EncInv (EncM.abort msg : EncM α) := by
  intro s b s2 h
  cases h

theorem encInv_ofOption (msg : String) (o : Option α) : EncInv (EncM.ofOption msg o) := by
  cases o with
  | none => exact encInv_abort msg
  | some a => exact encInv_pure a

theorem encInv_getState : EncInv EncM.getState := by
  intro s b s2 h
  cases h
  exact MapMono.refl s

theorem encInv_newVar : EncInv newVar := by
  intro s b s2 h
  cases h
  exact ⟨fun _ _ hv => hv, rfl, rfl⟩

theorem encInv_newVarsAsLits (n : Nat) : EncInv (newVarsAsLits n) := by
  intro s b s2 h
  cases h
  exact ⟨fun _ _ hv => hv, rfl, rfl⟩

theorem encInv_addClause (c : List Lit) : EncInv (addClause c) := by
  intro s b s2 h
  cases h
  exact ⟨fun _ _ hv => hv, rfl, rfl⟩

theorem encInv_addClauses : ∀ cs : List (List Lit), EncInv (addClauses cs) := by
  intro cs
  induction cs with
  | nil => exact encInv_pure ()
  | cons c rest ih => exact EncInv.bind (encInv_addClause c) (fun _ => ih)

theorem encInv_addClauseSet (cs : ClauseSet) : EncInv (addClauseSet cs) :=
  encInv_addClauses cs.toList

theorem encInv_addOrderEncodingLinear (lits : List (List Lit)) (domain : List (List Int))
    (coefs : List Int) (constant : Int) :
    EncInv (addOrderEncodingLinear lits domain coefs constant) := by
  intro s b s2 h
  cases h
  exact ⟨fun _ _ hv => hv, rfl, rfl⟩

theorem encInv_addActiveVerticesConnected (lits : List Lit) (edges : List (Nat × Nat)) :
    EncInv (addActiveVerticesConnected lits edges) := by
  intro s b s2 h
  cases h
  exact ⟨fun _ _ hv => hv, rfl, rfl⟩

theorem encInv_setBoolMapEntry (v : Nat) (l : Lit) : EncInv (setBoolMapEntry v l) := by
  intro s b s2 h
  cases h
  exact ⟨fun _ _ hv => hv, rfl, rfl⟩

theorem encInv_intVarRepr (v : Nat) : EncInv (intVarRepr v) := by
  intro s b s2 h
  unfold intVarRepr at h
  cases hg : s.vars.intVarDefs.get? v with
  | none => rw [hg] at h; cases h
  | some r =>
    rw [hg] at h
    cases h
    exact MapMono.refl s

theorem encInv_newIntVar (r : IntVarRepresentation) : EncInv (newIntVar r) := by
  intro s b s2 h
  cases h
  exact ⟨fun _ _ hv => hv, rfl, rfl⟩

theorem encInv_convertBoolVar (v : Nat) : EncInv (convertBoolVar v) := by
  unfold convertBoolVar
  refine EncInv.bind encInv_getState (fun st => ?_)
  cases st.map.boolGet v with
  | some x => exact encInv_pure x
  | none =>
    refine EncInv.bind encInv_newVar (fun nv => ?_)
    exact EncInv.bind (encInv_setBoolMapEntry v ⟨nv, false⟩) (fun _ => encInv_pure _)

theorem encInv_convertBoolLit (bl : BoolLit) : EncInv (convertBoolLit bl) := by
  unfold convertBoolLit
  exact EncInv.bind (encInv_convertBoolVar bl.var) (fun l => encInv_pure _)

theorem encInv_convertBoolLits : ∀ bls : List BoolLit, EncInv (convertBoolLits bls) := by
  intro bls
  induction bls with
  | nil => exact encInv_pure []
  | cons b rest ih =>
    unfold convertBoolLits
    exact EncInv.bind (encInv_convertBoolLit b) (fun l =>
      EncInv.bind ih (fun ls => encInv_pure _))

/-- Running `addClauses` only appends to the SAT clause list. -/
theorem addClauses_apply : ∀ (cs : List (List Lit)) (s : EncState),
    addClauses cs s =
      .ok ((), { s with sat := { s.sat with clauses := s.sat.clauses ++ cs } }) := by
  intro cs
  induction cs with
  | nil =>
    intro s
    simp [addClauses, Pure.pure, EncM.pureM]
  | cons c rest ih =>
    intro s
    have hb : addClauses (c :: rest) s = EncM.bindM (addClause c) (fun _ => addClauses rest) s := rfl
    rw [hb]
    show addClauses rest { s with sat := { s.sat with clauses := s.sat.clauses ++ [c] } } = _
    rw [ih]
    simp

/-- `convertBoolVar` can touch only the Boolean map and the SAT state. -/
theorem convertBoolVar_spec (v : Nat) : ∀ s a s2, convertBoolVar v s = .ok (a, s2) →
    s2.map.intMap = s.map.intMap ∧ s2.constraints = s.constraints ∧
    s2.extraConstraints = s.extraConstraints ∧ s2.vars = s.vars ∧
    s2.numEncodedVars = s.numEncodedVars := by
  intro s a s2 h
  simp only [convertBoolVar, Bind.bind, EncM.bindM, EncM.getState] at h
  cases hm : s.map.boolGet v with
  | some x =>
    rw [hm] at h
    simp only [Pure.pure, EncM.pureM] at h
    cases h
    exact ⟨rfl, rfl, rfl, rfl, rfl⟩
  | none =>
    rw [hm] at h
    simp only [newVar, setBoolMapEntry, Pure.pure, EncM.pureM] at h
    cases h
    exact ⟨rfl, rfl, rfl, rfl, rfl⟩

/-- `convertBoolLit` can touch only the Boolean map and the SAT state. -/
theorem convertBoolLit_spec (bl : BoolLit) : ∀ s a s2, convertBoolLit bl s = .ok (a, s2) →
    s2.map.intMap = s.map.intMap ∧ s2.constraints = s.constraints ∧
    s2.extraConstraints = s.extraConstraints ∧ s2.vars = s.vars ∧
    s2.numEncodedVars = s.numEncodedVars := by
  intro s a s2 h
  simp only [convertBoolLit, Bind.bind, EncM.bindM] at h
  cases hcb : convertBoolVar bl.var s with
  | error e => rw [hcb] at h; cases h
  | ok p =>
    rw [hcb] at h
    simp only [Pure.pure, EncM.pureM] at h
    cases h
    exact convertBoolVar_spec bl.var s p.1 p.2 hcb

/-- Characterization of `convertIntVarOrderEncoding`: it leaves the
queues alone and either records a fresh order encoding for `v` (when
`v` was unencoded) or does nothing (when `v` already had one). -/
theorem convertIntVarOrderEncoding_spec (v : Nat) : ∀ s a s2,
    convertIntVarOrderEncoding v s = .ok (a, s2) →
    s2.constraints = s.constraints ∧ s2.extraConstraints = s.extraConstraints ∧
    ((s.map.intGet v = none ∧ ∃ oe, ∀ w, s2.map.intGet w =
        if v = w then some (Encoding.ofOrder oe) else s.map.intGet w) ∨
     (∃ e, s.map.intGet v = some e ∧ s2 = s)) := by
  intro s a s2 h
  simp only [convertIntVarOrderEncoding, Bind.bind, EncM.bindM, EncM.getState] at h
  cases hm : s.map.intGet v with
  | some e0 =>
    rw [hm] at h
    simp only [Pure.pure, EncM.pureM] at h
    cases h
    exact ⟨rfl, rfl, Or.inr ⟨e0, rfl, rfl⟩⟩
  | none =>
    rw [hm] at h
    simp only [EncM.bindM, intVarRepr] at h
    cases hg : s.vars.intVarDefs.get? v with
    | none => rw [hg] at h; cases h
    | some r =>
      rw [hg] at h
      simp only [] at h
      cases r with
      | domain d =>
        simp only [] at h
        by_cases hd : d.enumerate.length = 0
        · rw [if_pos hd] at h
          simp only [EncM.abort] at h
          cases h
        · rw [if_neg hd] at h
          simp only [EncM.bindM, newVarsAsLits] at h
          rw [addClauses_apply] at h
          simp only [setIntMapEntry] at h
          cases h
          refine ⟨rfl, rfl, Or.inl ⟨rfl, ⟨⟨d.enumerate,
            (List.range (d.enumerate.length - 1)).map
              (fun i => ⟨s.sat.numVars + i, false⟩)⟩, ?_⟩⟩⟩
          intro w
          have := getIdx_setIdx (Encoding.ofOrder ⟨d.enumerate,
            (List.range (d.enumerate.length - 1)).map
              (fun i => ⟨s.sat.numVars + i, false⟩)⟩) v s.map.intMap w
          simpa [EncodeMap.intGet] using this
      | binary cond f t =>
        simp only [EncM.bindM] at h
        cases hcb : convertBoolLit cond s with
        | error e => rw [hcb] at h; cases h
        | ok p =>
          rw [hcb] at h
          simp only [setIntMapEntry] at h
          cases h
          obtain ⟨him, hc, he, _, _⟩ := convertBoolLit_spec cond s p.1 p.2 hcb
          refine ⟨hc, he, Or.inl ⟨rfl, ⟨⟨[f, t], [p.1]⟩, ?_⟩⟩⟩
          intro w
          have := getIdx_setIdx (Encoding.ofOrder ⟨[f, t], [p.1]⟩) v p.2.map.intMap w
          simp only [EncodeMap.intGet] at this ⊢
          rw [this, him]

/-- Characterization of `convertIntVarDirectEncoding`, as for the order
encoder. -/
theorem convertIntVarDirectEncoding_spec (v : Nat) : ∀ s a s2,
    convertIntVarDirectEncoding v s = .ok (a, s2) →
    s2.constraints = s.constraints ∧ s2.extraConstraints = s.extraConstraints ∧
    ((s.map.intGet v = none ∧ ∃ de, ∀ w, s2.map.intGet w =
        if v = w then some (Encoding.ofDirect de) else s.map.intGet w) ∨
     (∃ e, s.map.intGet v = some e ∧ s2 = s)) := by
  intro s a s2 h
  simp only [convertIntVarDirectEncoding, Bind.bind, EncM.bindM, EncM.getState] at h
  cases hm : s.map.intGet v with
  | some e0 =>
    rw [hm] at h
    simp only [Pure.pure, EncM.pureM] at h
    cases h
    exact ⟨rfl, rfl, Or.inr ⟨e0, rfl, rfl⟩⟩
  | none =>
    rw [hm] at h
    simp only [EncM.bindM, intVarRepr] at h
    cases hg : s.vars.intVarDefs.get? v with
    | none => rw [hg] at h; cases h
    | some r =>
      rw [hg] at h
      simp only [] at h
      cases r with
      | domain d =>
        simp only [] at h
        by_cases hd : d.enumerate.length = 0
        · rw [if_pos hd] at h
          simp only [EncM.abort] at h
          cases h
        · rw [if_neg hd] at h
          simp only [EncM.bindM, newVarsAsLits] at h
          rw [addClauses_apply] at h
          simp only [setIntMapEntry] at h
          cases h
          refine ⟨rfl, rfl, Or.inl ⟨rfl, ⟨⟨d.enumerate,
            (List.range d.enumerate.length).map
              (fun i => ⟨s.sat.numVars + i, false⟩)⟩, ?_⟩⟩⟩
          intro w
          have := getIdx_setIdx (Encoding.ofDirect ⟨d.enumerate,
            (List.range d.enumerate.length).map
              (fun i => ⟨s.sat.numVars + i, false⟩)⟩) v s.map.intMap w
          simpa [EncodeMap.intGet] using this
      | binary cond f t =>
        simp only [EncM.bindM] at h
        cases hcb : convertBoolLit cond s with
        | error e => rw [hcb] at h; cases h
        | ok p =>
          rw [hcb] at h
          simp only [setIntMapEntry] at h
          cases h
          obtain ⟨him, hc, he, _, _⟩ := convertBoolLit_spec cond s p.1 p.2 hcb
          refine ⟨hc, he, Or.inl ⟨rfl, ⟨⟨[f, t], [p.1.inv, p.1]⟩, ?_⟩⟩⟩
          intro w
          have := getIdx_setIdx (Encoding.ofDirect ⟨[f, t], [p.1.inv, p.1]⟩) v p.2.map.intMap w
          simp only [EncodeMap.intGet] at this ⊢
          rw [this, him]

/-- Characterization of `convertIntVarLogEncoding`, as for the order
encoder. -/
theorem convertIntVarLogEncoding_spec (v : Nat) : ∀ s a s2,
    convertIntVarLogEncoding v s = .ok (a, s2) →
    s2.constraints = s.constraints ∧ s2.extraConstraints = s.extraConstraints ∧
    ((s.map.intGet v = none ∧ ∃ le, ∀ w, s2.map.intGet w =
        if v = w then some (Encoding.ofLog le) else s.map.intGet w) ∨
     (∃ e, s.map.intGet v = some e ∧ s2 = s)) := by
  intro s a s2 h
  simp only [convertIntVarLogEncoding, Bind.bind, EncM.bindM, EncM.getState] at h
  cases hm : s.map.intGet v with
  | some e0 =>
    rw [hm] at h
    simp only [Pure.pure, EncM.pureM] at h
    cases h
    exact ⟨rfl, rfl, Or.inr ⟨e0, rfl, rfl⟩⟩
  | none =>
    rw [hm] at h
    simp only [EncM.bindM, intVarRepr] at h
    cases hg : s.vars.intVarDefs.get? v with
    | none => rw [hg] at h; cases h
    | some r =>
      rw [hg] at h
      simp only [] at h
      cases r with
      | domain d =>
        simp only [] at h
        by_cases hd : d.lowerBound < 0
        · rw [if_pos hd] at h
          simp only [EncM.abort] at h
          cases h
        · rw [if_neg hd] at h
          simp only [EncM.bindM, newVarsAsLits] at h
          rw [addClauses_apply] at h
          simp only [] at h
          rw [addClauses_apply] at h
          simp only [] at h
          rw [addClauses_apply] at h
          simp only [setIntMapEntry] at h
          cases h
          refine ⟨rfl, rfl, Or.inl ⟨rfl, ⟨⟨(List.range (bitLength d.upperBound.toNat)).map
              (fun i => ⟨s.sat.numVars + i, false⟩), ⟨d.lowerBound, d.upperBound⟩⟩, ?_⟩⟩⟩
          intro w
          have := getIdx_setIdx (Encoding.ofLog ⟨(List.range (bitLength d.upperBound.toNat)).map
              (fun i => ⟨s.sat.numVars + i, false⟩), ⟨d.lowerBound, d.upperBound⟩⟩) v
            s.map.intMap w
          simpa [EncodeMap.intGet] using this
      | binary cond f t =>
        simp only [EncM.abort] at h
        cases h

/-- `EncInv` for the three conversion functions. -/
theorem encInv_convertIntVarOrderEncoding (v : Nat) :
    EncInv (convertIntVarOrderEncoding v) := by
  intro s a s2 h
  obtain ⟨hc, he, hcase⟩ := convertIntVarOrderEncoding_spec v s a s2 h
  refine ⟨?_, hc, he⟩
  intro w e hw
  cases hcase with
  | inl hset =>
    obtain ⟨hnone, oe, hall⟩ := hset
    rw [hall w]
    by_cases hvw : v = w
    · subst hvw
      rw [hnone] at hw
      cases hw
    · rw [if_neg hvw]
      exact hw
  | inr hskip =>
    obtain ⟨e0, _, hs⟩ := hskip
    rw [hs]
    exact hw

theorem encInv_convertIntVarDirectEncoding (v : Nat) :
    EncInv (convertIntVarDirectEncoding v) := by
  intro s a s2 h
  obtain ⟨hc, he, hcase⟩ := convertIntVarDirectEncoding_spec v s a s2 h
  refine ⟨?_, hc, he⟩
  intro w e hw
  cases hcase with
  | inl hset =>
    obtain ⟨hnone, de, hall⟩ := hset
    rw [hall w]
    by_cases hvw : v = w
    · subst hvw
      rw [hnone] at hw
      cases hw
    · rw [if_neg hvw]
      exact hw
  | inr hskip =>
    obtain ⟨e0, _, hs⟩ := hskip
    rw [hs]
    exact hw

theorem encInv_convertIntVarLogEncoding (v : Nat) :
    EncInv (convertIntVarLogEncoding v) := by
  intro s a s2 h
  obtain ⟨hc, he, hcase⟩ := convertIntVarLogEncoding_spec v s a s2 h
  refine ⟨?_, hc, he⟩
  intro w e hw
  cases hcase with
  | inl hset =>
    obtain ⟨hnone, le, hall⟩ := hset
    rw [hall w]
    by_cases hvw : v = w
    · subst hvw
      rw [hnone] at hw
      cases hw
    · rw [if_neg hvw]
      exact hw
  | inr hskip =>
    obtain ⟨e0, _, hs⟩ := hskip
    rw [hs]
    exact hw

theorem encInv_decomposeLoop (config : Config) (op : CmpOp) (k : Int) :
    ∀ fuel heap pending dp ret,
    EncInv (decomposeLoop config op k fuel heap pending dp ret) := by
  intro fuel
  induction fuel with
  | zero => intro heap pending dp ret; exact encInv_abort _
  | succ n ih =>
    intro heap pending dp ret
    cases heap with
    | nil => exact encInv_pure _
    | cons top heapRest =>
      unfold decomposeLoop
      simp only []
      by_cases hc : config.domainProductThreshold ≤ dp * top.1 ∧ 2 ≤ pending.length ∧
          2 ≤ (top :: heapRest).length
      · rw [if_pos hc]
        refine EncInv.bind encInv_getState (fun st => ?_)
        refine EncInv.bind (encInv_newIntVar _) (fun auxVar => ?_)
        refine EncInv.bind (encInv_convertIntVarOrderEncoding auxVar) (fun _ => ?_)
        refine EncInv.bind encInv_getState (fun st2 => ?_)
        refine EncInv.bind (encInv_ofOption _ _) (fun auxDomSize => ?_)
        exact ih _ _ _ _
      · rw [if_neg hc]
        exact ih _ _ _ _

theorem encInv_decomposeLinearLit (config : Config) (lit : LinearLit) :
    EncInv (decomposeLinearLit config lit) := by
  unfold decomposeLinearLit
  refine EncInv.bind encInv_getState (fun st => ?_)
  refine EncInv.bind (encInv_ofOption _ _) (fun heap0 => ?_)
  refine EncInv.bind (encInv_decomposeLoop config _ _ _ _ _ _ _) (fun r => ?_)
  exact encInv_pure _

theorem encInv_decomposeLogLoop (config : Config) (op : CmpOp) (k : Int) :
    ∀ fuel qp qn ret, EncInv (decomposeLogLoop config op k fuel qp qn ret) := by
  intro fuel
  induction fuel with
  | zero => intro qp qn ret; exact encInv_abort _
  | succ n ih =>
    intro qp qn ret
    unfold decomposeLogLoop
    by_cases hc : 6 < qp.length + qn.length
    · rw [if_pos hc]
      refine EncInv.bind encInv_getState (fun st => ?_)
      refine EncInv.bind (encInv_newIntVar _) (fun auxVar => ?_)
      refine EncInv.bind (encInv_convertIntVarLogEncoding auxVar) (fun _ => ?_)
      exact ih _ _ _
    · rw [if_neg hc]
      exact encInv_pure _

theorem encInv_decomposeLinearLitLog (config : Config) (lit : LinearLit) :
    EncInv (decomposeLinearLitLog config lit) := by
  unfold decomposeLinearLitLog
  refine EncInv.bind (encInv_decomposeLogLoop config _ _ _ _ _ _) (fun r => ?_)
  exact encInv_pure _

theorem encInv_encodeLinearGeOrderEncodingNative (sum : LinearSum) :
    EncInv (encodeLinearGeOrderEncodingNative sum) := by
  unfold encodeLinearGeOrderEncodingNative
  refine EncInv.bind encInv_getState (fun st => ?_)
  refine EncInv.bind (encInv_ofOption _ _) (fun info => ?_)
  exact encInv_addOrderEncodingLinear _ _ _ _

theorem encInv_adderLoop : ∀ fuel i pv pc carry result cs,
    EncInv (adderLoop fuel i pv pc carry result cs) := by
  intro fuel
  induction fuel with
  | zero => intro i pv pc carry result cs; exact encInv_abort _
  | succ n ih =>
    intro i pv pc carry result cs
    unfold adderLoop
    by_cases hc : i < pv.length
    · rw [if_pos hc]
      refine EncInv.bind (encInv_newVarsAsLits _) (fun carryNext => ?_)
      refine EncInv.bind ?_ (fun result2 => ih _ _ _ _ _ _)
      by_cases hr : result.length ≤ i
      · rw [if_pos hr]
        exact EncInv.bind (encInv_newVarsAsLits _) (fun extra => encInv_pure _)
      · rw [if_neg hr]
        exact encInv_pure _
    · rw [if_neg hc]
      exact encInv_pure _

theorem encInv_logEncodingAdder (values : List (Nat × List Lit)) (constant : List Int)
    (result : List Lit) : EncInv (logEncodingAdder values constant result) := by
  unfold logEncodingAdder
  simp only []
  cases h : adderNormalizeConstant ((adderInit values constant).2.length + 64) 0
      (adderInit values constant) with
  | none => exact encInv_abort _
  | some pvc2 => exact encInv_adderLoop _ _ _ _ _ _ _

theorem encInv_logNeBuild (sp sn : List Lit) : ∀ idxs clause cs,
    EncInv (logNeBuild sp sn idxs clause cs) := by
  intro idxs
  induction idxs with
  | nil => intro clause cs; exact encInv_pure _
  | cons i rest ih =>
    intro clause cs
    unfold logNeBuild
    by_cases h1 : sp.length ≤ i
    · rw [if_pos h1]
      exact ih _ _
    · rw [if_neg h1]
      by_cases h2 : sn.length ≤ i
      · rw [if_pos h2]
        exact ih _ _
      · rw [if_neg h2]
        exact EncInv.bind encInv_newVar (fun av => ih _ _)

theorem encInv_logGeBuild (sp sn : List Lit) : ∀ idxs sub cs,
    EncInv (logGeBuild sp sn idxs sub cs) := by
  intro idxs
  induction idxs with
  | nil => intro sub cs; exact encInv_pure _
  | cons i rest ih =>
    intro sub cs
    unfold logGeBuild
    exact EncInv.bind encInv_newVar (fun sv => ih _ _)

theorem encInv_encodeLinearLog (sum : LinearSum) (op : CmpOp) :
    EncInv (encodeLinearLog sum op) := by
  unfold encodeLinearLog
  refine EncInv.bind encInv_getState (fun st => ?_)
  refine EncInv.bind (encInv_ofOption _ _) (fun entries => ?_)
  refine EncInv.bind (encInv_logEncodingAdder _ _ _) (fun r1 => ?_)
  refine EncInv.bind (encInv_logEncodingAdder _ _ _) (fun r2 => ?_)
  cases op
  · exact encInv_pure _
  · exact EncInv.bind (encInv_logNeBuild _ _ _ _ _) (fun r => encInv_pure _)
  · exact encInv_abort _
  · exact encInv_abort _
  · refine EncInv.bind (encInv_logGeBuild _ _ _ _ _) (fun r => ?_)
    by_cases hc : r1.2.length ≤ r2.2.length
    · rw [if_pos hc]
      exact encInv_pure _
    · rw [if_neg hc]
      exact encInv_pure _
  · exact encInv_abort _

theorem encInv_mulRowGo (x : Lit) : ∀ v2 cs row, EncInv (mulRowGo x v2 cs row) := by
  intro v2
  induction v2 with
  | nil => intro cs row; exact encInv_pure _
  | cons y rest ih =>
    intro cs row
    unfold mulRowGo
    exact EncInv.bind encInv_newVar (fun mv => ih _ _)

theorem encInv_mulAllRows (v2 : List Lit) : ∀ rows cs acc,
    EncInv (mulAllRows v2 rows cs acc) := by
  intro rows
  induction rows with
  | nil => intro cs acc; exact encInv_pure _
  | cons p rest ih =>
    intro cs acc
    cases p with
    | mk i x =>
      unfold mulAllRows
      exact EncInv.bind (encInv_mulRowGo _ _ _ _) (fun r => ih _ _)

theorem encInv_logEncodingMultiplier (v1 v2 res : List Lit) :
    EncInv (logEncodingMultiplier v1 v2 res) := by
  unfold logEncodingMultiplier
  refine EncInv.bind (encInv_mulAllRows _ _ _ _) (fun r => ?_)
  refine EncInv.bind (encInv_logEncodingAdder _ _ _) (fun r2 => ?_)
  exact encInv_pure _

theorem encInv_encodeMulLog (x y m : Nat) : EncInv (encodeMulLog x y m) := by
  unfold encodeMulLog
  refine EncInv.bind encInv_getState (fun st => ?_)
  refine EncInv.bind (encInv_ofOption _ _) (fun xr => ?_)
  refine EncInv.bind (encInv_ofOption _ _) (fun yr => ?_)
  refine EncInv.bind (encInv_ofOption _ _) (fun mr => ?_)
  refine EncInv.bind (encInv_logEncodingMultiplier _ _ _) (fun r => ?_)
  exact encInv_pure _

theorem encInv_decomposeAll (config : Config) : ∀ sums,
    EncInv (decomposeAll config sums) := by
  intro sums
  induction sums with
  | nil => exact encInv_pure _
  | cons sum rest ih =>
    unfold decomposeAll
    refine EncInv.bind (encInv_decomposeLinearLit config _) (fun d => ?_)
    exact EncInv.bind ih (fun rest2 => encInv_pure _)

theorem encInv_simplifyLinearLits (config : Config) : ∀ lits,
    EncInv (simplifyLinearLits config lits) := by
  intro lits
  induction lits with
  | nil => exact encInv_pure _
  | cons lit rest ih =>
    unfold simplifyLinearLits
    refine EncInv.bind encInv_getState (fun st => ?_)
    refine EncInv.bind (encInv_ofOption _ _) (fun uns => ?_)
    cases uns
    · simp only [Bool.false_eq_true, if_false]
      refine EncInv.bind (encInv_ofOption _ _) (fun kind => ?_)
      cases kind
      · by_cases hne : lit.op == CmpOp.ne
        · simp only [hne, if_true]
          refine EncInv.bind (encInv_decomposeLinearLit config _) (fun a => ?_)
          refine EncInv.bind (encInv_decomposeLinearLit config _) (fun b => ?_)
          exact EncInv.bind ih (fun rest2 => encInv_pure _)
        · simp only [hne, Bool.false_eq_true, if_false]
          refine EncInv.bind (encInv_decomposeAll config _) (fun d => ?_)
          exact EncInv.bind ih (fun rest2 => encInv_pure _)
      · exact EncInv.bind ih (fun rest2 => encInv_pure _)
      · refine EncInv.bind (encInv_decomposeLinearLit config _) (fun d => ?_)
        exact EncInv.bind ih (fun rest2 => encInv_pure _)
      · refine EncInv.bind (encInv_decomposeLinearLitLog config _) (fun d => ?_)
        exact EncInv.bind ih (fun rest2 => encInv_pure _)
    · simp only [if_true]
      exact ih

theorem encInv_encodeNativeList (config : Config) : ∀ lits,
    EncInv (encodeNativeList config lits) := by
  intro lits
  induction lits with
  | nil => exact encInv_pure _
  | cons lit rest ih =>
    unfold encodeNativeList
    refine EncInv.bind encInv_getState (fun st => ?_)
    refine EncInv.bind (encInv_ofOption _ _) (fun kind => ?_)
    cases kind
    · by_cases hn : isGeOrderEncodingNativeApplicable config st.map lit.sum
      · rw [if_pos hn]
        exact EncInv.bind (encInv_encodeLinearGeOrderEncodingNative _) (fun _ => ih)
      · rw [if_neg hn]
        refine EncInv.bind (encInv_ofOption _ _) (fun encoded => ?_)
        exact EncInv.bind (encInv_addClauseSet _) (fun _ => ih)
    · refine EncInv.bind (encInv_ofOption _ _) (fun encoded => ?_)
      cases encoded
      · exact ih
      · exact EncInv.bind (encInv_addClause _) (fun _ => ih)
    · refine EncInv.bind (encInv_ofOption _ _) (fun encoded => ?_)
      exact EncInv.bind (encInv_addClauseSet _) (fun _ => ih)
    · refine EncInv.bind (encInv_encodeLinearLog _ _) (fun encoded => ?_)
      exact EncInv.bind (encInv_addClauseSet _) (fun _ => ih)

theorem encInv_encodeConjunction (config : Config) : ∀ lits acc,
    EncInv (encodeConjunction config lits acc) := by
  intro lits
  induction lits with
  | nil => intro acc; exact encInv_pure _
  | cons lit rest ih =>
    intro acc
    unfold encodeConjunction
    refine EncInv.bind encInv_getState (fun st => ?_)
    refine EncInv.bind (encInv_ofOption _ _) (fun kind => ?_)
    cases kind
    · exact EncInv.bind (encInv_ofOption _ _) (fun encoded => ih _)
    · refine EncInv.bind (encInv_ofOption _ _) (fun encoded => ?_)
      cases encoded
      · exact ih _
      · exact ih _
    · exact EncInv.bind (encInv_ofOption _ _) (fun encoded => ih _)
    · exact EncInv.bind (encInv_encodeLinearLog _ _) (fun encoded => ih _)

theorem encInv_buildEncodedLits (config : Config) : ∀ lits boolLits,
    EncInv (buildEncodedLits config lits boolLits) := by
  intro lits
  induction lits with
  | nil => intro boolLits; exact encInv_pure _
  | cons l rest ih =>
    intro boolLits
    unfold buildEncodedLits
    refine EncInv.bind (encInv_encodeConjunction config _ _) (fun conj => ?_)
    by_cases h0 : conj.len = 0
    · rw [if_pos h0]
      exact encInv_pure _
    · rw [if_neg h0]
      by_cases h1 : conj.len = 1
      · rw [if_pos h1]
        exact ih _
      · rw [if_neg h1]
        refine EncInv.bind (ih _) (fun r => ?_)
        cases r
        · exact encInv_pure _
        · exact encInv_pure _

theorem encInv_addClausesWithSuffix (suffix : List Lit) : ∀ cs,
    EncInv (addClausesWithSuffix suffix cs) := by
  intro cs
  induction cs with
  | nil => exact encInv_pure _
  | cons c rest ih =>
    unfold addClausesWithSuffix
    exact EncInv.bind (encInv_addClause _) (fun _ => ih)

theorem encInv_allocChanneling : ∀ n chan bl, EncInv (allocChanneling n chan bl) := by
  intro n
  induction n with
  | zero => intro chan bl; exact encInv_pure _
  | succ m ih =>
    intro chan bl
    unfold allocChanneling
    exact EncInv.bind encInv_newVar (fun v => ih _ _)

theorem encInv_emitChanneled : ∀ ps, EncInv (emitChanneled ps) := by
  intro ps
  induction ps with
  | nil => exact encInv_pure _
  | cons p rest ih =>
    cases p with
    | mk cs chLit =>
      unfold emitChanneled
      exact EncInv.bind (encInv_addClausesWithSuffix _ _) (fun _ => ih)

theorem encInv_encodeConstraint (config : Config) (constr : Constraint) :
    EncInv (encodeConstraint config constr) := by
  unfold encodeConstraint
  refine EncInv.bind (encInv_convertBoolLits _) (fun boolLits => ?_)
  by_cases h0 : constr.linearLit.length = 0
  · rw [if_pos h0]
    exact encInv_addClause _
  · rw [if_neg h0]
    refine EncInv.bind (encInv_simplifyLinearLits config _) (fun simplified => ?_)
    by_cases h1 : simplified.length = 0
    · rw [if_pos h1]
      exact encInv_addClause _
    · rw [if_neg h1]
      by_cases h2 : simplified.length = 1 ∧ boolLits.length = 0
      · rw [if_pos h2]
        exact encInv_encodeNativeList config _
      · rw [if_neg h2]
        refine EncInv.bind (encInv_buildEncodedLits config _ _) (fun r => ?_)
        cases r with
        | none => exact encInv_pure _
        | some el =>
          simp only []
          by_cases h3 : el.1.length = 0
          · rw [if_pos h3]
            exact encInv_addClause _
          · rw [if_neg h3]
            by_cases h4 : el.1.length = 1
            · rw [if_pos h4]
              exact encInv_addClausesWithSuffix _ _
            · rw [if_neg h4]
              by_cases h5 : el.1.length = 2 ∧ el.2.length = 0
              · rw [if_pos h5]
                exact EncInv.bind encInv_newVar (fun v => encInv_emitChanneled _)
              · rw [if_neg h5]
                refine EncInv.bind (encInv_allocChanneling _ _ _) (fun chbl => ?_)
                exact EncInv.bind (encInv_addClause _) (fun _ => encInv_emitChanneled _)

theorem encInv_encodeConstraints (config : Config) : ∀ cs,
    EncInv (encodeConstraints config cs) := by
  intro cs
  induction cs with
  | nil => exact encInv_pure _
  | cons c rest ih =>
    unfold encodeConstraints
    exact EncInv.bind (encInv_encodeConstraint config c) (fun _ => ih)

theorem encInv_handleExtra : ∀ e, EncInv (handleExtra e) := by
  intro e
  cases e with
  | activeVerticesConnected vertices edges =>
    unfold handleExtra
    refine EncInv.bind (encInv_convertBoolLits _) (fun lits => ?_)
    exact encInv_addActiveVerticesConnected _ _
  | mul x y m =>
    unfold handleExtra
    refine EncInv.bind (encInv_encodeMulLog x y m) (fun cs => ?_)
    exact encInv_addClauseSet _

theorem encInv_handleExtras : ∀ es, EncInv (handleExtras es) := by
  intro es
  induction es with
  | nil => exact encInv_pure _
  | cons e rest ih =>
    unfold handleExtras
    exact EncInv.bind (encInv_handleExtra e) (fun _ => ih)

theorem encInv_convertVars (config : Config) (dvars : List Nat) : ∀ vs,
    EncInv (convertVars config dvars vs) := by
  intro vs
  induction vs with
  | nil => exact encInv_pure _
  | cons v rest ih =>
    unfold convertVars
    by_cases h1 : config.forceUseLogEncoding
    · simp only [h1, if_true]
      exact EncInv.bind (encInv_convertIntVarLogEncoding v) (fun _ => ih)
    · simp only [h1, Bool.false_eq_true, if_false]
      by_cases h2 : dvars.contains v
      · simp only [h2, if_true]
        exact EncInv.bind (encInv_convertIntVarDirectEncoding v) (fun _ => ih)
      · simp only [h2, Bool.false_eq_true, if_false]
        exact EncInv.bind (encInv_convertIntVarOrderEncoding v) (fun _ => ih)

/-- Every successful run of `encode` drains both queues, sets the
watermark to the final variable count, and preserves every pre-existing
integer-variable encoding. -/
theorem encode_post_aux (config : Config) (s s2 : EncState)
    (h : encode config s = Except.ok ((), s2)) :
    s2.constraints = [] ∧ s2.extraConstraints = [] ∧
    s2.numEncodedVars = s2.vars.intVarDefs.length ∧
    (∀ v e, s.map.intGet v = some e → s2.map.intGet v = some e) := by
  simp only [encode, Bind.bind, EncM.bindM, EncM.getState] at h
  cases hcv : convertVars config (directEncodingVarsOf config s) (unencodedIntVars s) s with
  | error e => rw [hcv] at h; cases h
  | ok p =>
    obtain ⟨u1, s1⟩ := p
    rw [hcv] at h
    simp only [EncM.bindM, takeConstraints] at h
    have hm1 : MapMono s s1 := encInv_convertVars config _ _ s u1 s1 hcv
    cases hec : encodeConstraints config s1.constraints { s1 with constraints := [] } with
    | error e => rw [hec] at h; cases h
    | ok q =>
      obtain ⟨u2, sB⟩ := q
      rw [hec] at h
      simp only [EncM.bindM, takeExtraConstraints] at h
      have hm2 : MapMono { s1 with constraints := [] } sB :=
        encInv_encodeConstraints config _ _ u2 sB hec
      cases hhe : handleExtras sB.extraConstraints { sB with extraConstraints := [] } with
      | error e => rw [hhe] at h; cases h
      | ok r =>
        obtain ⟨u3, sC⟩ := r
        rw [hhe] at h
        simp only [EncM.bindM, setWatermark] at h
        have hm3 : MapMono { sB with extraConstraints := [] } sC :=
          encInv_handleExtras _ _ u3 sC hhe
        cases h
        refine ⟨hm3.2.1.trans hm2.2.1, hm3.2.2, rfl, ?_⟩
        intro v e hv
        exact hm3.1 v e (hm2.1 v e (hm1.1 v e hv))

/-- `encode` is the identity on a state whose queues are empty and whose
watermark already equals the variable count. -/
theorem encode_drained (config : Config) (vars : NormVars) (sat : SATState)
    (map : EncodeMap) :
    encode config ⟨vars, [], [], vars.intVarDefs.length, sat, map⟩ =
      Except.ok ((), ⟨vars, [], [], vars.intVarDefs.length, sat, map⟩) := by
  have h0 : unencodedIntVars ⟨vars, [], [], vars.intVarDefs.length, sat, map⟩ = [] := by
    simp [unencodedIntVars]
  simp only [encode, Bind.bind, EncM.bindM, EncM.getState, h0]
  rfl

/-- C8: after a first call of `encode` has drained the queues and
encoded every variable, a second call on the same structures encodes no
variable, allocates no SAT variable, adds no clause, and returns the
state of the first call unchanged. -/
theorem C8_encode_idempotent (config : Config) (s s1 : EncState)
    (h : encode config s = Except.ok ((), s1)) :
    encode config s1 = Except.ok ((), s1) := by
  obtain ⟨hc, he, hn, -⟩ := encode_post_aux config s s1 h
  cases s1 with
  | mk vars constraints extras numEnc sat map =>
    have hc2 : constraints = [] := hc
    have he2 : extras = [] := he
    have hn2 : numEnc = vars.intVarDefs.length := hn
    subst hc2
    subst he2
    subst hn2
    exact encode_drained config vars sat map

/-- Witness: a concrete run where the second `encode` call is inert. -/
theorem C8_encode_idempotent_witness :
    encode plainConfig c8State = Except.ok ((), c8Final) ∧
    encode plainConfig c8Final = Except.ok ((), c8Final) :=
  ⟨by decide, C8_encode_idempotent plainConfig c8State c8Final (by decide)⟩

/-- C9: when `encode` returns, the constraint queue and the
extra-constraint queue are empty, `num_encoded_vars` equals the total
number of integer variables at that moment, and every encoding present
in the map before the call is still recorded unchanged. -/
theorem C9_encode_postconditions (config : Config) (s s2 : EncState)
    (h : encode config s = Except.ok ((), s2)) :
    s2.constraints = [] ∧ s2.extraConstraints = [] ∧
    s2.numEncodedVars = s2.vars.intVarDefs.length ∧
    (∀ v e, s.map.intGet v = some e → s2.map.intGet v = some e) :=
  encode_post_aux config s s2 h

/-- Witness: the postconditions on a concrete run of `encode`. -/
theorem C9_encode_postconditions_witness :
    encode plainConfig c9State = Except.ok ((), c9Final) ∧
    (c9Final.constraints = [] ∧ c9Final.extraConstraints = [] ∧
     c9Final.numEncodedVars = c9Final.vars.intVarDefs.length ∧
     (∀ v e, c9State.map.intGet v = some e → c9Final.map.intGet v = some e)) :=
  ⟨by decide, C9_encode_postconditions plainConfig c9State c9Final (by decide)⟩

theorem mem_foldl_filterLits (v : Nat) : ∀ (lits : List LinearLit) (acc : List Nat),
    v ∈ lits.foldl (fun acc2 l =>
        if isSimpleLit l then acc2 else acc2.filter (fun w => !litMentions l w)) acc ↔
      (v ∈ acc ∧ ∀ l ∈ lits, isSimpleLit l = false → litMentions l v = false) := by
  intro lits
  induction lits with
  | nil => intro acc; simp
  | cons l rest ih =>
    intro acc
    simp only [List.foldl_cons]
    by_cases hs : isSimpleLit l
    · rw [if_pos hs, ih]
      constructor
      · rintro ⟨ha, hrest⟩
        refine ⟨ha, ?_⟩
        intro l2 hl2 hns
        rcases List.mem_cons.mp hl2 with hh | hh
        · subst hh; simp [hs] at hns
        · exact hrest l2 hh hns
      · rintro ⟨ha, hall⟩
        exact ⟨ha, fun l2 hl2 hns => hall l2 (List.mem_cons_of_mem _ hl2) hns⟩
    · rw [if_neg hs, ih]
      have hsf : isSimpleLit l = false := by
        revert hs; cases isSimpleLit l <;> simp
      constructor
      · rintro ⟨ha, hrest⟩
        have hmem := List.mem_filter.mp ha
        have hml : litMentions l v = false := by
          have hb := hmem.2
          simpa using hb
        refine ⟨hmem.1, ?_⟩
        intro l2 hl2 hns
        rcases List.mem_cons.mp hl2 with hh | hh
        · subst hh; exact hml
        · exact hrest l2 hh hns
      · rintro ⟨ha, hall⟩
        refine ⟨List.mem_filter.mpr ⟨ha, ?_⟩,
                fun l2 hl2 hns => hall l2 (List.mem_cons_of_mem _ hl2) hns⟩
        have hml := hall l (List.mem_cons_self _ _) hsf
        simp [hml]

theorem mem_foldl_filterConstraints (v : Nat) : ∀ (cs : List Constraint) (acc : List Nat),
    v ∈ cs.foldl (fun acc constr => constr.linearLit.foldl
        (fun acc2 l => if isSimpleLit l then acc2
         else acc2.filter (fun w => !litMentions l w)) acc) acc ↔
      (v ∈ acc ∧ ∀ c ∈ cs, ∀ l ∈ c.linearLit,
        isSimpleLit l = false → litMentions l v = false) := by
  intro cs
  induction cs with
  | nil => intro acc; simp
  | cons c rest ih =>
    intro acc
    simp only [List.foldl_cons]
    rw [ih, mem_foldl_filterLits]
    constructor
    · rintro ⟨⟨ha, hc⟩, hrest⟩
      refine ⟨ha, ?_⟩
      intro c2 hc2
      rcases List.mem_cons.mp hc2 with hh | hh
      · subst hh; exact hc
      · exact hrest c2 hh
    · rintro ⟨ha, hall⟩
      exact ⟨⟨ha, hall c (List.mem_cons_self _ _)⟩,
             fun c2 hc2 => hall c2 (List.mem_cons_of_mem _ hc2)⟩

/-- Membership in the candidate direct-encoding set, characterized: the
config switch is on, the variable is yet unencoded and representation-
eligible, and no non-simple pending literal mentions it. -/
theorem mem_directEncodingVarsOf (config : Config) (st : EncState) (v : Nat) :
    v ∈ directEncodingVarsOf config st ↔
      (config.useDirectEncoding = true ∧ v ∈ unencodedIntVars st ∧
       maybeDirectEncoding config (st.vars.intVarDefs.getD v (.domain ⟨[]⟩)) = true ∧
       ∀ c ∈ st.constraints, ∀ l ∈ c.linearLit,
         isSimpleLit l = false → litMentions l v = false) := by
  unfold directEncodingVarsOf
  by_cases hu : config.useDirectEncoding
  · rw [if_pos hu, mem_foldl_filterConstraints, List.mem_filter]
    constructor
    · rintro ⟨⟨hmem, hmd⟩, hall⟩
      exact ⟨hu, hmem, hmd, hall⟩
    · rintro ⟨-, hmem, hmd, hall⟩
      exact ⟨⟨hmem, hmd⟩, hall⟩
  · rw [if_neg hu]
    simp only [List.not_mem_nil, false_iff]
    intro hcon
    exact hu hcon.1

/-- The conversion loop of `encode` gives every listed, yet-unencoded
variable an encoding of the configured kind: log when forced, direct
when in the candidate list, order otherwise. -/
theorem convertVars_spec (config : Config) (dvars : List Nat) :
    ∀ (vs : List Nat) (s : EncState) (a : Unit) (s2 : EncState),
    convertVars config dvars vs s = Except.ok (a, s2) →
    ∀ v, v ∈ vs → s.map.intGet v = none →
    ∃ e, s2.map.intGet v = some e ∧
      ((config.forceUseLogEncoding = true ∧ ∃ le, e = Encoding.ofLog le) ∨
       (config.forceUseLogEncoding = false ∧ dvars.contains v = true ∧
         ∃ de, e = Encoding.ofDirect de) ∨
       (config.forceUseLogEncoding = false ∧ dvars.contains v = false ∧
         ∃ oe, e = Encoding.ofOrder oe)) := by
  intro vs
  induction vs with
  | nil =>
    intro s a s2 h v hv hnone
    exact absurd hv (List.not_mem_nil v)
  | cons w rest ih =>
    intro s a s2 h v hv hnone
    simp only [convertVars, Bind.bind, EncM.bindM] at h
    by_cases hf : config.forceUseLogEncoding
    · simp only [hf, if_true] at h
      simp only [EncM.bindM] at h
      cases hcv : convertIntVarLogEncoding w s with
      | error er => rw [hcv] at h; cases h
      | ok p =>
        obtain ⟨u, sa⟩ := p
        rw [hcv] at h
        have hspec := convertIntVarLogEncoding_spec w s u sa hcv
        by_cases hwv : w = v
        · subst hwv
          rcases hspec.2.2 with ⟨hn0, le, hall⟩ | ⟨e0, he0, hseq⟩
          · have hsa : sa.map.intGet w = some (Encoding.ofLog le) := by
              have hw := hall w
              rw [if_pos rfl] at hw
              exact hw
            have hmono := encInv_convertVars config dvars rest sa a s2 h
            exact ⟨Encoding.ofLog le, hmono.1 w _ hsa, Or.inl ⟨hf, le, rfl⟩⟩
          · rw [hnone] at he0; cases he0
        · have hsanone : sa.map.intGet v = none := by
            rcases hspec.2.2 with ⟨hn0, le, hall⟩ | ⟨e0, he0, hseq⟩
            · have hw := hall v
              rw [if_neg hwv] at hw
              rw [hw]
              exact hnone
            · rw [hseq]; exact hnone
          rcases List.mem_cons.mp hv with hvw | hvr
          · exact absurd hvw.symm hwv
          · exact ih sa a s2 h v hvr hsanone
    · have hf2 : config.forceUseLogEncoding = false := by
        revert hf; cases config.forceUseLogEncoding <;> simp
      simp only [hf2, Bool.false_eq_true, if_false] at h
      by_cases hd : dvars.contains w
      · simp only [hd, if_true] at h
        simp only [EncM.bindM] at h
        cases hcv : convertIntVarDirectEncoding w s with
        | error er => rw [hcv] at h; cases h
        | ok p =>
          obtain ⟨u, sa⟩ := p
          rw [hcv] at h
          have hspec := convertIntVarDirectEncoding_spec w s u sa hcv
          by_cases hwv : w = v
          · subst hwv
            rcases hspec.2.2 with ⟨hn0, de, hall⟩ | ⟨e0, he0, hseq⟩
            · have hsa : sa.map.intGet w = some (Encoding.ofDirect de) := by
                have hw := hall w
                rw [if_pos rfl] at hw
                exact hw
              have hmono := encInv_convertVars config dvars rest sa a s2 h
              exact ⟨Encoding.ofDirect de, hmono.1 w _ hsa,
                Or.inr (Or.inl ⟨hf2, hd, de, rfl⟩)⟩
            · rw [hnone] at he0; cases he0
          · have hsanone : sa.map.intGet v = none := by
              rcases hspec.2.2 with ⟨hn0, de, hall⟩ | ⟨e0, he0, hseq⟩
              · have hw := hall v
                rw [if_neg hwv] at hw
                rw [hw]
                exact hnone
              · rw [hseq]; exact hnone
            rcases List.mem_cons.mp hv with hvw | hvr
            · exact absurd hvw.symm hwv
            · exact ih sa a s2 h v hvr hsanone
      · have hd2 : dvars.contains w = false := by
          revert hd; cases dvars.contains w <;> simp
        simp only [hd2, Bool.false_eq_true, if_false] at h
        simp only [EncM.bindM] at h
        cases hcv : convertIntVarOrderEncoding w s with
        | error er => rw [hcv] at h; cases h
        | ok p =>
          obtain ⟨u, sa⟩ := p
          rw [hcv] at h
          have hspec := convertIntVarOrderEncoding_spec w s u sa hcv
          by_cases hwv : w = v
          · subst hwv
            rcases hspec.2.2 with ⟨hn0, oe, hall⟩ | ⟨e0, he0, hseq⟩
            · have hsa : sa.map.intGet w = some (Encoding.ofOrder oe) := by
                have hw := hall w
                rw [if_pos rfl] at hw
                exact hw
              have hmono := encInv_convertVars config dvars rest sa a s2 h
              exact ⟨Encoding.ofOrder oe, hmono.1 w _ hsa,
                Or.inr (Or.inr ⟨hf2, hd2, oe, rfl⟩)⟩
            · rw [hnone] at he0; cases he0
          · have hsanone : sa.map.intGet v = none := by
              rcases hspec.2.2 with ⟨hn0, oe, hall⟩ | ⟨e0, he0, hseq⟩
              · have hw := hall v
                rw [if_neg hwv] at hw
                rw [hw]
                exact hnone
              · rw [hseq]; exact hnone
            rcases List.mem_cons.mp hv with hvw | hvr
            · exact absurd hvw.symm hwv
            · exact ih sa a s2 h v hvr hsanone

/-- C2: during `encode`, every yet-unencoded integer variable receives
an encoding, chosen as follows: log when `force_use_log_encoding` is
set; otherwise direct exactly when `use_direct_encoding` is set, the
representation allows it (Binary only with
`direct_encoding_for_binary_vars`), and every linear literal of every
pending constraint mentioning the variable is simple (Eq or Ne with at
most 2 terms); otherwise order. -/
theorem C2_encoding_selection (config : Config) (s s2 : EncState) (v : Nat)
    (h : encode config s = Except.ok ((), s2))
    (hv : v ∈ unencodedIntVars s) (hnone : s.map.intGet v = none) :
    ∃ e, s2.map.intGet v = some e ∧
      ((config.forceUseLogEncoding = true ∧ ∃ le, e = Encoding.ofLog le) ∨
       (config.forceUseLogEncoding = false ∧
        (config.useDirectEncoding = true ∧
         maybeDirectEncoding config (s.vars.intVarDefs.getD v (.domain ⟨[]⟩)) = true ∧
         ∀ c ∈ s.constraints, ∀ l ∈ c.linearLit,
           isSimpleLit l = false → litMentions l v = false) ∧
        ∃ de, e = Encoding.ofDirect de) ∨
       (config.forceUseLogEncoding = false ∧
        ¬(config.useDirectEncoding = true ∧
          maybeDirectEncoding config (s.vars.intVarDefs.getD v (.domain ⟨[]⟩)) = true ∧
          ∀ c ∈ s.constraints, ∀ l ∈ c.linearLit,
            isSimpleLit l = false → litMentions l v = false) ∧
        ∃ oe, e = Encoding.ofOrder oe)) := by
  simp only [encode, Bind.bind, EncM.bindM, EncM.getState] at h
  cases hcv : convertVars config (directEncodingVarsOf config s) (unencodedIntVars s) s with
  | error er => rw [hcv] at h; cases h
  | ok p =>
    obtain ⟨u1, s1⟩ := p
    rw [hcv] at h
    simp only [EncM.bindM, takeConstraints] at h
    obtain ⟨e, he, hkind⟩ := convertVars_spec config _ _ s u1 s1 hcv v hv hnone
    cases hec : encodeConstraints config s1.constraints { s1 with constraints := [] } with
    | error er => rw [hec] at h; cases h
    | ok q =>
      obtain ⟨u2, sB⟩ := q
      rw [hec] at h
      simp only [EncM.bindM, takeExtraConstraints] at h
      cases hhe : handleExtras sB.extraConstraints { sB with extraConstraints := [] } with
      | error er => rw [hhe] at h; cases h
      | ok r =>
        obtain ⟨u3, sC⟩ := r
        rw [hhe] at h
        simp only [EncM.bindM, setWatermark] at h
        cases h
        have hm2 := encInv_encodeConstraints config _ _ u2 sB hec
        have hm3 := encInv_handleExtras _ _ u3 sC hhe
        have hfinal : sC.map.intGet v = some e := hm3.1 v e (hm2.1 v e he)
        refine ⟨e, hfinal, ?_⟩
        rcases hkind with ⟨hfl, le, hle⟩ | ⟨hfl, hcont, de, hde⟩ | ⟨hfl, hcont, oe, hoe⟩
        · exact Or.inl ⟨hfl, le, hle⟩
        · refine Or.inr (Or.inl ⟨hfl, ?_, de, hde⟩)
          have hmem : v ∈ directEncodingVarsOf config s := List.elem_iff.mp hcont
          have hchar := (mem_directEncodingVarsOf config s v).mp hmem
          exact ⟨hchar.1, hchar.2.2.1, hchar.2.2.2⟩
        · refine Or.inr (Or.inr ⟨hfl, ?_, oe, hoe⟩)
          intro hcond
          have hmem : v ∈ directEncodingVarsOf config s :=
            (mem_directEncodingVarsOf config s v).mpr ⟨hcond.1, hv, hcond.2.1, hcond.2.2⟩
          have hcont2 : (directEncodingVarsOf config s).contains v = true :=
            List.elem_iff.mpr hmem
          rw [hcont] at hcont2
          cases hcont2

/-- Witness: on a concrete run the unencoded variable 0 lands in the
candidate set and receives a direct encoding. -/
theorem C2_encoding_selection_witness :
    encode c2Config c2State = Except.ok ((), c2Final) ∧
    (0 ∈ unencodedIntVars c2State) ∧
    (∃ e, c2Final.map.intGet 0 = some e ∧
      ((c2Config.forceUseLogEncoding = true ∧ ∃ le, e = Encoding.ofLog le) ∨
       (c2Config.forceUseLogEncoding = false ∧
        (c2Config.useDirectEncoding = true ∧
         maybeDirectEncoding c2Config (c2State.vars.intVarDefs.getD 0 (.domain ⟨[]⟩)) = true ∧
         ∀ c ∈ c2State.constraints, ∀ l ∈ c.linearLit,
           isSimpleLit l = false → litMentions l 0 = false) ∧
        ∃ de, e = Encoding.ofDirect de) ∨
       (c2Config.forceUseLogEncoding = false ∧
        ¬(c2Config.useDirectEncoding = true ∧
          maybeDirectEncoding c2Config (c2State.vars.intVarDefs.getD 0 (.domain ⟨[]⟩)) = true ∧
          ∀ c ∈ c2State.constraints, ∀ l ∈ c.linearLit,
            isSimpleLit l = false → litMentions l 0 = false) ∧
        ∃ oe, e = Encoding.ofOrder oe))) :=
  ⟨by decide, by decide,
   C2_encoding_selection c2Config c2State c2Final 0 (by decide) (by decide) (by decide)⟩

/-- Inversion of a successful monadic bind: both stages succeeded. -/
theorem bindM_ok {α β} {x : EncM α} {f : α → EncM β} {s s2 : EncState} {b : β}
    (h : EncM.bindM x f s = Except.ok (b, s2)) :
    ∃ a sa, x s = Except.ok (a, sa) ∧ f a sa = Except.ok (b, s2) := by
  unfold EncM.bindM at h
  cases hx : x s with
  | error e => rw [hx] at h; cases h
  | ok p =>
    obtain ⟨a, sa⟩ := p
    rw [hx] at h
    simp only [] at h
    exact ⟨a, sa, rfl, h⟩

/-- C6: in `encode_constraint` a linear literal is dropped from the
disjunction exactly when its interval range contradicts its operator:
the unsatisfiability test computes the claimed per-operator condition
on the accumulated range; a literal testing unsatisfiable is skipped
(state and result are those of the remaining literals alone), and a
literal testing satisfiable contributes its simplified conjunction(s)
in front of the remaining literals' result. -/
theorem C6_range_level_drop (config : Config) (lit : LinearLit) (rest : List LinearLit)
    (s : EncState) (r : Range)
    (hr : sumRangeAux s.map lit.sum.term (Range.constant lit.sum.constant) = some r) :
    (isUnsatisfiableLinear s.map lit = some true ↔
      match lit.op with
      | .ge => r.high < 0
      | .gt => r.high ≤ 0
      | .le => 0 < r.low
      | .lt => 0 ≤ r.low
      | .eq => 0 < r.low ∨ r.high < 0
      | .ne => r.low = 0 ∧ r.high = 0) ∧
    (isUnsatisfiableLinear s.map lit = some true →
      simplifyLinearLits config (lit :: rest) s = simplifyLinearLits config rest s) ∧
    (isUnsatisfiableLinear s.map lit = some false →
      ∀ ls s2, simplifyLinearLits config (lit :: rest) s = Except.ok (ls, s2) →
      ∃ conj ls2 s1, simplifyLinearLits config rest s1 = Except.ok (ls2, s2) ∧
        (ls = conj :: ls2 ∨ ∃ conj2, ls = conj :: conj2 :: ls2)) := by
  refine ⟨?_, ?_, ?_⟩
  · unfold isUnsatisfiableLinear
    rw [hr]
    obtain ⟨lsum, lop⟩ := lit
    cases lop <;> simp
  · intro huns
    simp only [simplifyLinearLits, Bind.bind, EncM.bindM, EncM.getState]
    rw [huns]
    simp only [EncM.ofOption, Pure.pure, EncM.pureM]
    simp only [if_true]
  · intro huns ls s2 hrun
    simp only [simplifyLinearLits, Bind.bind, EncM.bindM, EncM.getState] at hrun
    rw [huns] at hrun
    simp only [EncM.ofOption, Pure.pure, EncM.pureM, Bool.false_eq_true, if_false] at hrun
    cases hk : suggestEncoder s.map lit with
    | none =>
      rw [hk] at hrun
      simp only [EncM.ofOption, EncM.abort, EncM.bindM] at hrun
      cases hrun
    | some kind =>
      rw [hk] at hrun
      simp only [EncM.ofOption, Pure.pure, EncM.pureM, EncM.bindM] at hrun
      cases kind with
      | mixedGe =>
        simp only [] at hrun
        by_cases hne : (lit.op == CmpOp.ne) = true
        · rw [if_pos hne] at hrun
          obtain ⟨a, sa, ha, hrun⟩ := bindM_ok hrun
          obtain ⟨b, sb, hb, hrun⟩ := bindM_ok hrun
          obtain ⟨rest2, sc, hc, hrun⟩ := bindM_ok hrun
          simp only [Pure.pure, EncM.pureM] at hrun
          cases hrun
          exact ⟨a, rest2, sb, hc, Or.inr ⟨b, rfl⟩⟩
        · rw [if_neg hne] at hrun
          obtain ⟨d, sa, ha, hrun⟩ := bindM_ok hrun
          obtain ⟨rest2, sc, hc, hrun⟩ := bindM_ok hrun
          simp only [Pure.pure, EncM.pureM] at hrun
          cases hrun
          exact ⟨d, rest2, sa, hc, Or.inl rfl⟩
      | directSimple =>
        simp only [] at hrun
        obtain ⟨rest2, sc, hc, hrun⟩ := bindM_ok hrun
        simp only [Pure.pure, EncM.pureM] at hrun
        cases hrun
        exact ⟨[lit], rest2, s, hc, Or.inl rfl⟩
      | directEqNe =>
        simp only [] at hrun
        obtain ⟨d, sa, ha, hrun⟩ := bindM_ok hrun
        obtain ⟨rest2, sc, hc, hrun⟩ := bindM_ok hrun
        simp only [Pure.pure, EncM.pureM] at hrun
        cases hrun
        exact ⟨d, rest2, sa, hc, Or.inl rfl⟩
      | log =>
        simp only [] at hrun
        obtain ⟨d, sa, ha, hrun⟩ := bindM_ok hrun
        obtain ⟨rest2, sc, hc, hrun⟩ := bindM_ok hrun
        simp only [Pure.pure, EncM.pureM] at hrun
        cases hrun
        exact ⟨d, rest2, sa, hc, Or.inl rfl⟩

/-- Witness: the literal `x0 - 5 ≥ 0` over the order-encoded domain
`[1, 2]` tests range-level unsatisfiable and is skipped. -/
theorem C6_range_level_drop_witness :
    isUnsatisfiableLinear c6State.map c6Lit = some true ∧
    (isUnsatisfiableLinear c6State.map c6Lit = some true ↔ c6Range.high < 0) ∧
    simplifyLinearLits plainConfig (c6Lit :: []) c6State =
      simplifyLinearLits plainConfig [] c6State :=
  ⟨by decide,
   (C6_range_level_drop plainConfig c6Lit [] c6State c6Range (by decide)).1,
   (C6_range_level_drop plainConfig c6Lit [] c6State c6Range (by decide)).2.1 (by decide)⟩

end EnigmaCSP




